import Mathlib

/-!
# Verification of the SearchEngineProject core

A shallow embedding, in Lean 4, of the core of the `songhag/SearchEngineProject`
repository (SPIMI-style indexer, k-way merge of its flushed files into a final
index, lexicon builder, and the AND-only disk-backed query engine), together
with theorems settling the specification claims about it.

Conventions used throughout:
* Python `dict`s are modelled as association lists with Python's insertion
  semantics (inserting an existing key overwrites the value in place, a new key
  is appended at the end); iteration order is insertion order, as in CPython.
* Python strings are compared by code points; Lean's built-in `String`
  comparison functions do not reduce in the kernel, so the same code-point
  lexicographic order is defined here directly on `String.data`.
* Python floats are modelled as real numbers, and `math.log` as `Real.log`.
* File reading (`read_postings_at`, `iter_partial`) is modelled by passing the
  decoded file content, or an explicit byte list where byte offsets matter.
-/

/-! ## Code-point lexicographic order on strings (Python's `<` on `str`) -/

/-- Lexicographic comparison of character lists by code point, exactly
Python's `<` on strings (and definitionally Lean's `String.lt`, which does
not kernel-reduce). -/
def charListLtb : List Char → List Char → Bool
  | [], [] => false
  | [], _ :: _ => true
  | _ :: _, [] => false
  | a :: as, b :: bs => if a < b then true else if b < a then false else charListLtb as bs

/-- `a < b` on Python strings. -/
def strLt (a b : String) : Prop := charListLtb a.data b.data = true

/-- `a <= b` on Python strings (`¬ b < a`). -/
def strLe (a b : String) : Prop := charListLtb b.data a.data = false

instance : DecidableRel strLt := fun _ _ => instDecidableEqBool _ _
instance : DecidableRel strLe := fun _ _ => instDecidableEqBool _ _

theorem charListLtb_irrefl : ∀ as, charListLtb as as = false
  | [] => rfl
  | _ :: as => by simp [charListLtb, charListLtb_irrefl as]

theorem charListLtb_trichot :
    ∀ as bs, charListLtb as bs = true ∨ charListLtb bs as = true ∨ as = bs
  | [], [] => Or.inr (Or.inr rfl)
  | [], _ :: _ => Or.inl rfl
  | _ :: _, [] => Or.inr (Or.inl rfl)
  | a :: as, b :: bs => by
    rcases lt_trichotomy a b with h | h | h
    · exact Or.inl (by simp [charListLtb, h])
    · subst h
      rcases charListLtb_trichot as bs with h' | h' | h'
      · exact Or.inl (by simp [charListLtb, h'])
      · exact Or.inr (Or.inl (by simp [charListLtb, h']))
      · exact Or.inr (Or.inr (by rw [h']))
    · exact Or.inr (Or.inl (by simp [charListLtb, h]))

theorem charListLtb_trans : ∀ as bs cs, charListLtb as bs = true → charListLtb bs cs = true →
    charListLtb as cs = true
  | [], _, _ :: _, _, _ => rfl
  | [], [], [], h, _ => by cases h
  | [], _ :: _, [], _, h => by cases h
  | _ :: _, [], _, h, _ => by cases h
  | _ :: _, _ :: _, [], _, h => by cases h
  | a :: as, b :: bs, c :: cs, h1, h2 => by
    simp only [charListLtb] at h1 h2 ⊢
    rcases lt_trichotomy a b with hab | hab | hab
    · rcases lt_trichotomy b c with hbc | hbc | hbc
      · simp [lt_trans hab hbc]
      · subst hbc; simp [hab]
      · simp [hbc, not_lt.mpr (le_of_lt hbc)] at h2
    · subst hab
      rcases lt_trichotomy a c with hac | hac | hac
      · simp [hac]
      · subst hac
        simp [lt_irrefl] at h1 h2 ⊢
        exact charListLtb_trans _ _ _ h1 h2
      · simp [hac, not_lt.mpr (le_of_lt hac)] at h2
    · simp [hab, not_lt.mpr (le_of_lt hab)] at h1

theorem strEq_of_data_eq {a b : String} (h : a.data = b.data) : a = b := by
  cases a; cases b; cases h; rfl

theorem strLe_refl (a : String) : strLe a a := charListLtb_irrefl a.data

theorem strLt_asymm {a b : String} (h : strLt a b) : ¬ strLt b a := by
  intro h'
  have := charListLtb_trans _ _ _ h h'
  rw [charListLtb_irrefl] at this
  exact Bool.false_ne_true this

theorem strLe_of_strLt {a b : String} (h : strLt a b) : strLe a b :=
  Bool.eq_false_iff.mpr (fun h' => strLt_asymm h h')

theorem strLe_iff_not_strLt {a b : String} : strLe a b ↔ ¬ strLt b a := by
  unfold strLe strLt
  cases charListLtb b.data a.data <;> simp

theorem strLe_total (a b : String) : strLe a b ∨ strLe b a := by
  rcases charListLtb_trichot a.data b.data with h | h | h
  · exact Or.inl (strLe_of_strLt h)
  · exact Or.inr (strLe_of_strLt h)
  · exact Or.inl (strEq_of_data_eq h ▸ strLe_refl a)

theorem strLt_of_strLe_of_ne {a b : String} (h : strLe a b) (hne : a ≠ b) : strLt a b := by
  rcases charListLtb_trichot a.data b.data with h' | h' | h'
  · exact h'
  · exact absurd h' (strLe_iff_not_strLt.mp h)
  · exact absurd (strEq_of_data_eq h') hne

theorem strLe_trans {a b c : String} (h1 : strLe a b) (h2 : strLe b c) : strLe a c := by
  rw [strLe_iff_not_strLt] at h1 h2 ⊢
  intro hca
  by_cases hab : a = b
  · exact h2 (hab ▸ hca)
  by_cases hbc : b = c
  · exact h1 (hbc ▸ hca)
  exact h1 (charListLtb_trans _ _ _
    (strLt_of_strLe_of_ne (strLe_iff_not_strLt.mpr h2) hbc) hca)

theorem strLt_of_strLt_of_strLe {a b c : String} (h1 : strLt a b) (h2 : strLe b c) :
    strLt a c := by
  by_cases hbc : b = c
  · exact hbc ▸ h1
  · exact charListLtb_trans _ _ _ h1 (strLt_of_strLe_of_ne h2 hbc)

theorem strLt_of_strLe_of_strLt {a b c : String} (h1 : strLe a b) (h2 : strLt b c) :
    strLt a c := by
  by_cases hab : a = b
  · exact hab ▸ h2
  · exact charListLtb_trans _ _ _ (strLt_of_strLe_of_ne h1 hab) h2

theorem strLt_ne {a b : String} (h : strLt a b) : a ≠ b := by
  intro he
  subst he
  rw [strLt, charListLtb_irrefl] at h
  exact Bool.false_ne_true h

instance : IsTotal String strLe := ⟨strLe_total⟩
instance : IsTrans String strLe := ⟨fun _ _ _ => strLe_trans⟩

/-! ## The `Posting` data type (`search.py` dataclass / `merge_utils.py` tuple)

`search.py` represents a posting as a dataclass and `merge_utils.py` as a
5-tuple `(doc_id, tf, title_tf, header_tf, bold_tf)`; both carry the same five
non-negative integers, modelled by one structure. -/

structure Posting where
  doc_id : Nat
  tf : Nat
  title_tf : Nat
  header_tf : Nat
  bold_tf : Nat
deriving DecidableEq, Repr

/-! ## Tokenizer (`tokenizer.py`)

`Tokenizer.tokenize` lower-cases the text, takes the maximal runs matching
`[A-Za-z0-9]+`, and optionally maps a stemmer over the tokens.  The Porter
stemmer is an external dependency (`nltk`), passed here as an abstract
function `stem`.  `String.toLower` is `Char.toLower` mapped over the
characters, written out explicitly because `String.mapAux` does not
kernel-reduce. -/

/-- A character matched by the `[A-Za-z0-9]` regex class. -/
def isTokenChar (c : Char) : Bool :=
  (65 ≤ c.toNat && c.toNat ≤ 90) || (97 ≤ c.toNat && c.toNat ≤ 122) ||
    (48 ≤ c.toNat && c.toNat ≤ 57)

/-- `re.findall(r"[A-Za-z0-9]+", ·)`: maximal runs of token characters.
`acc` is the current run, in reverse. -/
def tokenRuns : List Char → List Char → List String
  | [], acc => if acc.isEmpty then [] else [String.mk acc.reverse]
  | c :: cs, acc =>
    if isTokenChar c then tokenRuns cs (c :: acc)
    else if acc.isEmpty then tokenRuns cs acc
    else String.mk acc.reverse :: tokenRuns cs []

/-- Models `Tokenizer.tokenize` (`tokenizer.py` lines 14-20): empty text gives
no tokens; otherwise lower-case, split on the regex, optionally stem. -/
def tokenize (stem : String → String) (useStem : Bool) (text : String) : List String :=
  if text = "" then []
  else
    let toks := tokenRuns (text.data.map Char.toLower) []
    if useStem then toks.map stem else toks

/-! ## Query engine (`search.py`) -/

/-- Python `dict` insertion: overwrite in place if the key exists, else append. -/
def dictInsert (k : Nat) (v : α) : List (Nat × α) → List (Nat × α)
  | [] => [(k, v)]
  | (k', v') :: rest => if k = k' then (k, v) :: rest else (k', v') :: dictInsert k v rest

/-- Python `dict` lookup (`d[k]` / `k in d`). -/
def dictGet (k : Nat) : List (Nat × α) → Option α
  | [] => none
  | (k', v) :: rest => if k = k' then some v else dictGet k rest

/-- Python `dict` lookup for string keys (the in-memory lexicon). -/
def strDictGet (k : String) : List (String × α) → Option α
  | [] => none
  | (k', v) :: rest => if k = k' then some v else strDictGet k rest

/-- The sort key of `postings_lists.sort(key=len)`: compare lists by length.
(Python's `list.sort` is stable; `List.insertionSort` with a `≤`-shaped
relation is the same stable sort.) -/
def lenLe (a b : List Posting) : Prop := a.length ≤ b.length

instance : DecidableRel lenLe := fun a b => Nat.decLe a.length b.length
instance : IsTotal (List Posting) lenLe := ⟨fun a b => Nat.le_total a.length b.length⟩
instance : IsTrans (List Posting) lenLe := ⟨fun _ _ _ => Nat.le_trans⟩

/-- One refinement round of the intersection: Python's
`for doc_id, acc in base.items(): if doc_id in ids: cur[doc_id] = acc + [ids[doc_id]]`
with `ids = {p.doc_id: p for p in lst}`. -/
def intersectStep (base : List (Nat × List Posting)) (lst : List Posting) :
    List (Nat × List Posting) :=
  let ids := lst.foldl (fun d p => dictInsert p.doc_id p d) []
  base.filterMap (fun pr => (dictGet pr.1 ids).map (fun p => (pr.1, pr.2 ++ [p])))

/-- Models `intersect_docsets` (`search.py` lines 61-82).  The Python function
sorts its `postings_lists` argument **in place** (line 70) before seeding the
candidate dict from the shortest list; the first component of the result is
that mutated argument as the caller observes it after the call.  The second
component is the returned `doc_id -> [postings]` dict, in insertion order.
`if not base: break` is the `b.isEmpty` early exit. -/
def intersectDocsets (postingsLists : List (List Posting)) :
    List (List Posting) × List (Nat × List Posting) :=
  if postingsLists.isEmpty then (postingsLists, [])
  else
    match List.insertionSort lenLe postingsLists with
    | [] => ([], [])
    | first :: rest =>
      let base := first.foldl (fun d p => dictInsert p.doc_id [p] d) []
      (first :: rest, rest.foldl (fun b lst => if b.isEmpty then b else intersectStep b lst) base)

/-- `idf = log((N+1)/(df+1)) + 1` (`search.py` line 99). -/
noncomputable def idf (N df : Nat) : ℝ :=
  Real.log (((N : ℝ) + 1) / ((df : ℝ) + 1)) + 1

/-- The (optionally boosted) term frequency of a posting
(`search.py` lines 101-103). -/
def weightedTf (useImportanceBoost : Bool) (p : Posting) : ℝ :=
  if useImportanceBoost then
    (p.tf : ℝ) + 2.0 * (p.title_tf : ℝ) + 1.5 * (p.header_tf : ℝ) + 1.2 * (p.bold_tf : ℝ)
  else (p.tf : ℝ)

/-- `tfw = 1.0 + math.log(tf) if tf > 0 else 0.0` (`search.py` line 106). -/
noncomputable def tfComponent (useImportanceBoost : Bool) (p : Posting) : ℝ :=
  if 0 < weightedTf useImportanceBoost p then 1 + Real.log (weightedTf useImportanceBoost p)
  else 0

/-- Models `score_doc_tf_idf` (`search.py` lines 85-108): running sum over
`zip(doc_postings, dfs)` of `tfw * idf`. -/
noncomputable def scoreDocTfIdf (docPostings : List Posting) (dfs : List Nat) (N : Nat)
    (useImportanceBoost : Bool) : ℝ :=
  (docPostings.zip dfs).foldl
    (fun s pr => s + tfComponent useImportanceBoost pr.1 * idf N pr.2) 0

/-- The per-term loop of `search_and` (`search.py` lines 131-137): look each
term up in the lexicon, bail out with an empty result (`none`) on the first
missing term, otherwise collect the postings list read at the term's offset
and the term's df, in query order.  `fetch` is `read_postings_at index_path`
(it returns `(term, df, postings)`; the caller uses only the postings). -/
def collectTerms (fetch : Nat → String × Nat × List Posting)
    (lexicon : List (String × Nat × Nat)) :
    List String → Option (List (List Posting) × List Nat)
  | [] => some ([], [])
  | t :: rest =>
    match strDictGet t lexicon with
    | none => none
    | some (off, df) =>
      match collectTerms fetch lexicon rest with
      | none => none
      | some (pls, dfs) => some ((fetch off).2.2 :: pls, df :: dfs)

/-- Sort key of `pairs.sort(key=lambda x: len(x[1]))` (`search.py` line 152). -/
def pairLenLe (a b : Nat × List Posting) : Prop := a.2.length ≤ b.2.length

instance : DecidableRel pairLenLe := fun a b => Nat.decLe a.2.length b.2.length

/-- Sort key of `scored.sort(key=lambda x: x[1], reverse=True)`
(`search.py` line 160): descending by score, stable. -/
def scoreGe (a b : Nat × ℝ) : Prop := b.2 ≤ a.2

noncomputable instance : DecidableRel scoreGe := fun a b => inferInstanceAs (Decidable (b.2 ≤ a.2))

/-- Models `search_and` (`search.py` lines 111-161).  `fetch` stands for
`read_postings_at index_path`; the lexicon maps a term to `(offset, df)`.
Note the aliasing from the source: `intersect_docsets` sorts `postings_lists`
in place, so the `zip(dfs, postings_lists)` at line 151 sees the
length-sorted lists (first component of `intersectDocsets`) while `dfs` is
still in query order. -/
noncomputable def searchAnd (stem : String → String) (useStem : Bool) (query : String)
    (fetch : Nat → String × Nat × List Posting) (lexicon : List (String × Nat × Nat))
    (N : Nat) (topk : Nat) (rank : Bool) : List (Nat × ℝ) :=
  let terms := tokenize stem useStem query
  if terms.isEmpty then []
  else
    match collectTerms fetch lexicon terms with
    | none => []
    | some (postingsLists, dfs) =>
      match intersectDocsets postingsLists with
      | (postingsListsAfter, docToPostings) =>
        if docToPostings.isEmpty then []
        else if rank = false then
          (docToPostings.map (fun pr => (pr.1, (0 : ℝ)))).take topk
        else
          let pairs := dfs.zip postingsListsAfter
          let pairsSorted := List.insertionSort pairLenLe pairs
          let dfsSorted := pairsSorted.map (fun x => x.1)
          let scored := docToPostings.map
            (fun pr => (pr.1, scoreDocTfIdf pr.2 dfsSorted N true))
          (List.insertionSort scoreGe scored).take topk

/-! ## C9: `intersect_docsets` reorders its argument in place -/

/-- C9: `intersect_docsets` mutates its argument: after every call the
caller's `postings_lists` (the first component of the model's result) is a
permutation of the original list, reordered into ascending order of list
length.  `search_and` then observes this reordered list at line 151. -/
theorem c9_intersect_mutates_argument (postingsLists : List (List Posting)) :
    ((intersectDocsets postingsLists).1).Perm postingsLists ∧
      List.Pairwise lenLe (intersectDocsets postingsLists).1 := by
  unfold intersectDocsets
  by_cases h : postingsLists.isEmpty
  · rw [if_pos h]
    rw [List.isEmpty_iff] at h
    subst h
    exact ⟨List.Perm.refl _, List.Pairwise.nil⟩
  · rw [if_neg h]
    have hperm := List.perm_insertionSort lenLe postingsLists
    have hsort := List.sorted_insertionSort lenLe postingsLists
    match hm : List.insertionSort lenLe postingsLists with
    | [] =>
      rw [hm] at hperm
      exact absurd (List.isEmpty_iff.mpr hperm.symm.eq_nil) h
    | first :: rest =>
      rw [hm] at hperm hsort
      exact ⟨hperm, hsort⟩

/-! ## C10: queries tokenizing to nothing return empty without touching the index -/

/-- C10: if tokenization of the query yields no terms (e.g. the empty string,
or a string with no alphanumeric characters), `search_and` returns the empty
result list, for every index content `fetch` whatsoever (it never reads the
index file) and without error. -/
theorem c10_empty_tokenization_empty_result (stem : String → String) (useStem : Bool)
    (query : String) (h : tokenize stem useStem query = [])
    (fetch : Nat → String × Nat × List Posting) (lexicon : List (String × Nat × Nat))
    (N : Nat) (topk : Nat) (rank : Bool) :
    searchAnd stem useStem query fetch lexicon N topk rank = [] := by
  unfold searchAnd
  rw [h]
  rfl

/-- Witness for C10 at the empty query string. -/
theorem c10_empty_tokenization_empty_result_witness :
    tokenize id false "" = [] ∧
      searchAnd id false "" (fun _ => ("", 0, [])) [] 0 10 true = [] :=
  ⟨rfl, c10_empty_tokenization_empty_result id false "" rfl (fun _ => ("", 0, [])) [] 0 10 true⟩

/-! ## C6: a query term missing from the lexicon empties the whole AND query -/

theorem collectTerms_eq_none_of_missing (fetch : Nat → String × Nat × List Posting)
    (lexicon : List (String × Nat × Nat)) (t : String) :
    ∀ terms : List String, t ∈ terms → strDictGet t lexicon = none →
      collectTerms fetch lexicon terms = none := by
  intro terms
  induction terms with
  | nil => intro h; cases h
  | cons t0 rest ih =>
    intro hmem hnone
    rcases List.mem_cons.mp hmem with heq | hrest
    · subst heq
      unfold collectTerms
      rw [hnone]
    · unfold collectTerms
      cases strDictGet t0 lexicon with
      | none => rfl
      | some v =>
        rw [ih hrest hnone]

/-- C6: if any token of the tokenized query is absent from the lexicon,
`search_and` returns the (defined) empty result list, regardless of the other
query terms, the index content, and all other parameters. -/
theorem c6_missing_term_empty_result (stem : String → String) (useStem : Bool)
    (query : String) (t : String) (hmem : t ∈ tokenize stem useStem query)
    (hmiss : strDictGet t lexicon = none)
    (fetch : Nat → String × Nat × List Posting)
    (N : Nat) (topk : Nat) (rank : Bool) :
    searchAnd stem useStem query fetch lexicon N topk rank = [] := by
  unfold searchAnd
  have hne : (tokenize stem useStem query).isEmpty = false := by
    cases htok : tokenize stem useStem query with
    | nil => rw [htok] at hmem; cases hmem
    | cons a l => rfl
  simp only [hne, Bool.false_eq_true, if_false,
    collectTerms_eq_none_of_missing fetch lexicon t _ hmem hmiss]

/-- Witness for C6: the query "aa bb" against a lexicon containing only "aa". -/
theorem c6_missing_term_empty_result_witness :
    "bb" ∈ tokenize id false "aa bb" ∧
      strDictGet "bb" [("aa", ((0 : Nat), (1 : Nat)))] = none ∧
      searchAnd id false "aa bb" (fun _ => ("aa", 1, [⟨0, 1, 0, 0, 0⟩]))
        [("aa", (0, 1))] 1 10 true = [] :=
  ⟨by decide, by decide,
    c6_missing_term_empty_result id false "aa bb" "bb" (by decide) (by decide)
      (fun _ => ("aa", 1, [⟨0, 1, 0, 0, 0⟩])) 1 10 true⟩

/-! ## C8: increasing `title_tf` never decreases the boosted score -/

theorem foldl_add_sum (f : α → ℝ) :
    ∀ (l : List α) (a : ℝ), l.foldl (fun s x => s + f x) a = a + (l.map f).sum := by
  intro l
  induction l with
  | nil => intro a; simp
  | cons x l ih =>
    intro a
    simp only [List.foldl_cons, List.map_cons, List.sum_cons, ih]
    ring

theorem scoreDocTfIdf_nil_dfs (ps : List Posting) (N : Nat) (b : Bool) :
    scoreDocTfIdf ps [] N b = 0 := by
  unfold scoreDocTfIdf
  rw [List.zip_nil_right]
  rfl

theorem scoreDocTfIdf_cons (p : Posting) (ps : List Posting) (d : Nat) (ds : List Nat)
    (N : Nat) (b : Bool) :
    scoreDocTfIdf (p :: ps) (d :: ds) N b
      = tfComponent b p * idf N d + scoreDocTfIdf ps ds N b := by
  unfold scoreDocTfIdf
  rw [List.zip_cons_cons, foldl_add_sum, foldl_add_sum]
  simp only [List.map_cons, List.sum_cons]
  ring

theorem weightedTf_true_eval (p : Posting) :
    weightedTf true p
      = (p.tf : ℝ) + 2.0 * (p.title_tf : ℝ) + 1.5 * (p.header_tf : ℝ) + 1.2 * (p.bold_tf : ℝ) := by
  simp [weightedTf]

theorem weightedTf_nonneg (p : Posting) : 0 ≤ weightedTf true p := by
  rw [weightedTf_true_eval]
  positivity

theorem weightedTf_one_le_of_pos (p : Posting) (h : 0 < weightedTf true p) :
    1 ≤ weightedTf true p := by
  rw [weightedTf_true_eval] at h ⊢
  rcases Nat.eq_zero_or_pos p.tf with h1 | h1
  · rcases Nat.eq_zero_or_pos p.title_tf with h2 | h2
    · rcases Nat.eq_zero_or_pos p.header_tf with h3 | h3
      · rcases Nat.eq_zero_or_pos p.bold_tf with h4 | h4
        · rw [h1, h2, h3, h4] at h; norm_num at h
        · have : (1 : ℝ) ≤ (p.bold_tf : ℝ) := by exact_mod_cast h4
          have h1' : (0 : ℝ) ≤ (p.tf : ℝ) := Nat.cast_nonneg _
          have h2' : (0 : ℝ) ≤ (p.title_tf : ℝ) := Nat.cast_nonneg _
          have h3' : (0 : ℝ) ≤ (p.header_tf : ℝ) := Nat.cast_nonneg _
          nlinarith
      · have : (1 : ℝ) ≤ (p.header_tf : ℝ) := by exact_mod_cast h3
        have h1' : (0 : ℝ) ≤ (p.tf : ℝ) := Nat.cast_nonneg _
        have h2' : (0 : ℝ) ≤ (p.title_tf : ℝ) := Nat.cast_nonneg _
        have h4' : (0 : ℝ) ≤ (p.bold_tf : ℝ) := Nat.cast_nonneg _
        nlinarith
    · have : (1 : ℝ) ≤ (p.title_tf : ℝ) := by exact_mod_cast h2
      have h1' : (0 : ℝ) ≤ (p.tf : ℝ) := Nat.cast_nonneg _
      have h3' : (0 : ℝ) ≤ (p.header_tf : ℝ) := Nat.cast_nonneg _
      have h4' : (0 : ℝ) ≤ (p.bold_tf : ℝ) := Nat.cast_nonneg _
      nlinarith
  · have : (1 : ℝ) ≤ (p.tf : ℝ) := by exact_mod_cast h1
    have h2' : (0 : ℝ) ≤ (p.title_tf : ℝ) := Nat.cast_nonneg _
    have h3' : (0 : ℝ) ≤ (p.header_tf : ℝ) := Nat.cast_nonneg _
    have h4' : (0 : ℝ) ≤ (p.bold_tf : ℝ) := Nat.cast_nonneg _
    nlinarith

theorem tfComponent_nonneg (p : Posting) : 0 ≤ tfComponent true p := by
  unfold tfComponent
  by_cases h : 0 < weightedTf true p
  · rw [if_pos h]
    have := Real.log_nonneg (weightedTf_one_le_of_pos p h)
    linarith
  · rw [if_neg h]

theorem tfComponent_mono (p p' : Posting)
    (htf : p'.tf = p.tf) (hh : p'.header_tf = p.header_tf) (hb : p'.bold_tf = p.bold_tf)
    (ht : p.title_tf ≤ p'.title_tf) :
    tfComponent true p ≤ tfComponent true p' := by
  have hw : weightedTf true p ≤ weightedTf true p' := by
    rw [weightedTf_true_eval, weightedTf_true_eval, htf, hh, hb]
    have : (p.title_tf : ℝ) ≤ (p'.title_tf : ℝ) := by exact_mod_cast ht
    nlinarith
  unfold tfComponent
  by_cases h : 0 < weightedTf true p
  · rw [if_pos h, if_pos (lt_of_lt_of_le h hw)]
    have := Real.log_le_log h hw
    linarith
  · rw [if_neg h]
    by_cases h' : 0 < weightedTf true p'
    · rw [if_pos h']
      have := Real.log_nonneg (weightedTf_one_le_of_pos p' h')
      linarith
    · rw [if_neg h']

theorem idf_nonneg (N df : Nat) (h : df ≤ N) : 0 ≤ idf N df := by
  unfold idf
  have h1 : (0 : ℝ) < (df : ℝ) + 1 := by positivity
  have h2 : (1 : ℝ) ≤ ((N : ℝ) + 1) / ((df : ℝ) + 1) := by
    rw [le_div_iff₀ h1]
    have : (df : ℝ) ≤ (N : ℝ) := by exact_mod_cast h
    linarith
  have := Real.log_nonneg h2
  linarith

/-- C8: for a document surviving intersection, increasing its `title_tf` for
one query term (position `i` of the per-term postings), holding `tf`,
`header_tf`, `bold_tf`, all other postings, all dfs and `N` fixed, never
decreases `score_doc_tf_idf` with the importance boost enabled.  (The dfs all
satisfy `df ≤ N`, as document frequencies over a corpus of `N` documents
always do.) -/
theorem c8_title_tf_monotone :
    ∀ (ps : List Posting) (dfs : List Nat) (i : Nat) (N : Nat) (p p' : Posting),
      ps.get? i = some p →
      p'.doc_id = p.doc_id → p'.tf = p.tf → p'.header_tf = p.header_tf →
      p'.bold_tf = p.bold_tf → p.title_tf ≤ p'.title_tf →
      (∀ df ∈ dfs, df ≤ N) →
      scoreDocTfIdf ps dfs N true ≤ scoreDocTfIdf (ps.set i p') dfs N true := by
  intro ps
  induction ps with
  | nil => intro dfs i N p p' hi; cases hi
  | cons q qs ih =>
    intro dfs i N p p' hi hdoc htf hh hb ht hdf
    cases i with
    | zero =>
      have hq : q = p := Option.some.inj hi
      subst hq
      cases dfs with
      | nil => rw [scoreDocTfIdf_nil_dfs, List.set_cons_zero, scoreDocTfIdf_nil_dfs]
      | cons d ds =>
        rw [List.set_cons_zero, scoreDocTfIdf_cons, scoreDocTfIdf_cons]
        have hdN : d ≤ N := hdf d (List.mem_cons_self d ds)
        exact add_le_add
          (mul_le_mul_of_nonneg_right (tfComponent_mono q p' htf hh hb ht)
            (idf_nonneg N d hdN))
          (le_refl _)
    | succ i =>
      cases dfs with
      | nil => rw [scoreDocTfIdf_nil_dfs, scoreDocTfIdf_nil_dfs]
      | cons d ds =>
        rw [List.set_cons_succ, scoreDocTfIdf_cons, scoreDocTfIdf_cons]
        exact add_le_add (le_refl _)
          (ih ds i N p p' hi hdoc htf hh hb ht
            (fun df hmem => hdf df (List.mem_cons_of_mem d hmem)))

/-- Witness for C8: a single-term document whose `title_tf` is raised from 0
to 1. -/
theorem c8_title_tf_monotone_witness :
    ([⟨0, 1, 0, 0, 0⟩] : List Posting).get? 0 = some ⟨0, 1, 0, 0, 0⟩ ∧
    (⟨0, 1, 1, 0, 0⟩ : Posting).title_tf ≥ (⟨0, 1, 0, 0, 0⟩ : Posting).title_tf ∧
    (∀ df ∈ [1], df ≤ 1) ∧
    scoreDocTfIdf [⟨0, 1, 0, 0, 0⟩] [1] 1 true
      ≤ scoreDocTfIdf (([⟨0, 1, 0, 0, 0⟩] : List Posting).set 0 ⟨0, 1, 1, 0, 0⟩) [1] 1 true :=
  ⟨rfl, by decide, by decide,
    c8_title_tf_monotone [⟨0, 1, 0, 0, 0⟩] [1] 0 1 ⟨0, 1, 0, 0, 0⟩ ⟨0, 1, 1, 0, 0⟩
      rfl rfl rfl rfl rfl (by decide) (by decide)⟩

/-! ## C1: in ranked search the dfs are NOT aligned to the length-sorted postings

`search_and` intends (comment, lines 146-153) to reorder `dfs` by the same
length-ascending order that `intersect_docsets` used.  But `intersect_docsets`
has already sorted `postings_lists` in place, so `zip(dfs, postings_lists)`
at line 151 pairs the query-order dfs with the already-sorted lists, and the
stable `pairs.sort(key=len)` is then the identity: `dfs_sorted` stays in
query order while each document's accumulated postings are in length-sorted
order.  Whenever the length sort is a non-trivial permutation, a posting is
multiplied by the idf of a *different* term.

Concrete run: query "aa bb"; term "aa" has df 2 with postings for doc 0
(tf 2) and doc 1 (tf 1); term "bb" has df 1 with a posting for doc 0 (tf 1);
N = 2.  The intersection keeps doc 0 with postings `[bb-posting, aa-posting]`
(length-sorted order), but `dfs_sorted = [2, 1]` (query order), so the
bb-posting is scored with idf of df 2 and the aa-posting with idf of df 1 —
the exact opposite of the claimed alignment, and the resulting score differs
from the correctly aligned one. -/

theorem c1_dfs_misaligned_with_postings :
    searchAnd id false "aa bb"
        (fun off => if off = 0 then ("aa", 2, [⟨0, 2, 0, 0, 0⟩, ⟨1, 1, 0, 0, 0⟩])
          else ("bb", 1, [⟨0, 1, 0, 0, 0⟩]))
        [("aa", (0, 2)), ("bb", (1, 1))] 2 10 true
      = [(0, tfComponent true ⟨0, 1, 0, 0, 0⟩ * idf 2 2
            + tfComponent true ⟨0, 2, 0, 0, 0⟩ * idf 2 1)]
    ∧ tfComponent true ⟨0, 1, 0, 0, 0⟩ * idf 2 2 + tfComponent true ⟨0, 2, 0, 0, 0⟩ * idf 2 1
      ≠ tfComponent true ⟨0, 1, 0, 0, 0⟩ * idf 2 1 + tfComponent true ⟨0, 2, 0, 0, 0⟩ * idf 2 2
    := by
  constructor
  · have htok : tokenize id false "aa bb" = ["aa", "bb"] := by decide
    have hcol : collectTerms
        (fun off => if off = 0 then ("aa", 2, [(⟨0, 2, 0, 0, 0⟩ : Posting), ⟨1, 1, 0, 0, 0⟩])
          else ("bb", 1, [⟨0, 1, 0, 0, 0⟩]))
        [("aa", (0, 2)), ("bb", (1, 1))] ["aa", "bb"]
        = some ([[⟨0, 2, 0, 0, 0⟩, ⟨1, 1, 0, 0, 0⟩], [⟨0, 1, 0, 0, 0⟩]], [2, 1]) := by decide
    have hint : intersectDocsets [[⟨0, 2, 0, 0, 0⟩, ⟨1, 1, 0, 0, 0⟩], [⟨0, 1, 0, 0, 0⟩]]
        = ([[⟨0, 1, 0, 0, 0⟩], [⟨0, 2, 0, 0, 0⟩, ⟨1, 1, 0, 0, 0⟩]],
            [(0, [⟨0, 1, 0, 0, 0⟩, ⟨0, 2, 0, 0, 0⟩])]) := by decide
    have hpairs : List.insertionSort pairLenLe
          [((2 : Nat), [(⟨0, 1, 0, 0, 0⟩ : Posting)]),
            ((1 : Nat), [⟨0, 2, 0, 0, 0⟩, ⟨1, 1, 0, 0, 0⟩])]
        = [(2, [⟨0, 1, 0, 0, 0⟩]), (1, [⟨0, 2, 0, 0, 0⟩, ⟨1, 1, 0, 0, 0⟩])] := by decide
    have hscore : scoreDocTfIdf [⟨0, 1, 0, 0, 0⟩, ⟨0, 2, 0, 0, 0⟩] [2, 1] 2 true
        = tfComponent true ⟨0, 1, 0, 0, 0⟩ * idf 2 2
          + tfComponent true ⟨0, 2, 0, 0, 0⟩ * idf 2 1 := by
      rw [scoreDocTfIdf_cons, scoreDocTfIdf_cons, scoreDocTfIdf_nil_dfs]
      ring
    unfold searchAnd
    simp only [htok, hcol, hint, List.isEmpty_cons, Bool.false_eq_true, if_false,
      List.zip_cons_cons, List.zip_nil_right, List.map_cons, List.map_nil]
    rw [hpairs]
    simp only [List.map_cons, List.map_nil, hscore, Bool.true_eq_false, if_false,
      List.insertionSort, List.orderedInsert, List.take]
  · have hwB : weightedTf true ⟨0, 1, 0, 0, 0⟩ = 1 := by
      rw [weightedTf_true_eval]; norm_num
    have hwA : weightedTf true ⟨0, 2, 0, 0, 0⟩ = 2 := by
      rw [weightedTf_true_eval]; norm_num
    have hB : tfComponent true ⟨0, 1, 0, 0, 0⟩ = 1 := by
      unfold tfComponent
      rw [hwB, if_pos one_pos, Real.log_one]
      norm_num
    have hA : tfComponent true ⟨0, 2, 0, 0, 0⟩ = 1 + Real.log 2 := by
      unfold tfComponent
      rw [hwA, if_pos two_pos]
    have hidf2 : idf 2 2 = 1 := by
      unfold idf
      norm_num
    have hidf1 : idf 2 1 = Real.log (3 / 2) + 1 := by
      unfold idf
      norm_num
    rw [hB, hA, hidf2, hidf1]
    intro h
    have hl2 : 0 < Real.log 2 := Real.log_pos (by norm_num)
    have hl32 : 0 < Real.log (3 / 2) := Real.log_pos (by norm_num)
    nlinarith [mul_pos hl2 hl32]

/-! ## Merging posting lists (`merge_utils.py` `merge_postings`)

`merge_postings` dict-merges two posting lists: postings of `a` seed the dict
keyed by doc_id, postings of `b` are added, summing all four frequency fields
when a doc_id is already present, and the result is read back in ascending
doc_id order. -/

/-- The summed posting for a doc appearing in both lists
(`merge_utils.py` lines 44-50). -/
def sumPosting (pa p : Posting) : Posting :=
  ⟨p.doc_id, pa.tf + p.tf, pa.title_tf + p.title_tf, pa.header_tf + p.header_tf,
    pa.bold_tf + p.bold_tf⟩

/-- First loop of `merge_postings` (`merge_utils.py` lines 38-39): seed the
dict from list `a`. -/
def mergeSeed (d : List (Nat × Posting)) (p : Posting) : List (Nat × Posting) :=
  dictInsert p.doc_id p d

/-- Second loop of `merge_postings` (`merge_utils.py` lines 40-52): add a
posting of list `b`, summing fields if its doc is already present. -/
def mergeAdd (d : List (Nat × Posting)) (p : Posting) : List (Nat × Posting) :=
  match dictGet p.doc_id d with
  | some pa => dictInsert p.doc_id (sumPosting pa p) d
  | none => dictInsert p.doc_id p d

/-- Models `merge_postings` (`merge_utils.py` lines 32-53): dict-merge the two
lists then read the dict back in ascending doc_id order
(`[by[k] for k in sorted(by.keys())]`). -/
def mergePostings (a b : List Posting) : List Posting :=
  let by1 := b.foldl mergeAdd (a.foldl mergeSeed [])
  (List.insertionSort (· ≤ ·) (by1.map (fun e => e.1))).filterMap (fun k => dictGet k by1)

/-! ## K-way merge (`merge_utils.py` `merge_partials`)

The source keeps a `heapq` of `(term, i, postings)` tuples (one per live
input iterator) plus the list `iters` of lazy file iterators; the heap entry
of source `i` is always the record most recently pulled from `iters[i]`, and
`iters[i]` is only advanced right after popping that entry.  The model
bundles each pending entry with the not-yet-consumed remainder of its source
file (`rest`), which is exactly the information content of the heap plus the
iterators.  `heapq` pops the minimum under Python tuple comparison, i.e. by
`(term, i)` lexicographically (the pair `(term, i)` is unique per entry, so
the postings never get compared); the model's `popMin` extracts that same
minimum. -/

structure MEntry where
  term : String
  idx : Nat
  postings : List Posting
  rest : List (String × List Posting)
deriving DecidableEq

/-- Python tuple comparison `(term, i, ...) < (term', i', ...)` as far as the
merge ever evaluates it. -/
def entryLt (a b : MEntry) : Prop :=
  strLt a.term b.term ∨ (a.term = b.term ∧ a.idx < b.idx)

instance : DecidableRel entryLt := fun a b =>
  inferInstanceAs (Decidable (strLt a.term b.term ∨ (a.term = b.term ∧ a.idx < b.idx)))

/-- The minimum entry of the heap (what `heapq.heappop` returns). -/
def minEntry : List MEntry → Option MEntry
  | [] => none
  | x :: xs => some (xs.foldl (fun best y => if entryLt y best then y else best) x)

/-- `heapq.heappop`: the minimum entry and the remaining heap. -/
def popMin (l : List MEntry) : Option (MEntry × List MEntry) :=
  match minEntry l with
  | none => none
  | some e => some (e, l.erase e)

/-- After popping source `i`'s entry, pull the next record of that source (if
any) and push it (`merge_utils.py` lines 100-104). -/
def pushRest (e : MEntry) (h : List MEntry) : List MEntry :=
  match e.rest with
  | [] => h
  | r :: rs => ⟨r.1, e.idx, r.2, rs⟩ :: h

def entryWeight (e : MEntry) : Nat := e.rest.length + 1

def heapMeasure (h : List MEntry) : Nat := (h.map entryWeight).sum

/-- The body of the merge loop acting on the accumulator (`merge_utils.py`
lines 82-98): seed the accumulation, merge a same-term record into it, or
flush the finished term record (with `df = len(current_postings)`) and start
the next term. -/
def accum (cur : Option (String × List Posting)) (term : String) (postings : List Posting)
    (out : List (String × Nat × List Posting)) :
    Option (String × List Posting) × List (String × Nat × List Posting) :=
  match cur with
  | none => (some (term, postings), out)
  | some (t, ps) =>
    if term = t then (some (t, mergePostings ps postings), out)
    else (some (term, postings), (t, ps.length, ps) :: out)

theorem minEntry_spec :
    ∀ (xs : List MEntry) (x : MEntry),
      (xs.foldl (fun best y => if entryLt y best then y else best) x) ∈ x :: xs ∧
      ∀ y ∈ x :: xs,
        strLe (xs.foldl (fun best y => if entryLt y best then y else best) x).term y.term := by
  intro xs
  induction xs with
  | nil =>
    intro x
    refine ⟨List.mem_singleton_self x, ?_⟩
    intro y hy
    rw [List.mem_singleton] at hy
    subst hy
    exact strLe_refl _
  | cons z zs ih =>
    intro x
    rw [List.foldl_cons]
    obtain ⟨hmem, hmin⟩ := ih (if entryLt z x then z else x)
    have hx' : (if entryLt z x then z else x) = z ∨ (if entryLt z x then z else x) = x := by
      by_cases h : entryLt z x
      · rw [if_pos h]; exact Or.inl rfl
      · rw [if_neg h]; exact Or.inr rfl
    have hle_z : strLe (if entryLt z x then z else x).term z.term := by
      by_cases h : entryLt z x
      · rw [if_pos h]; exact strLe_refl _
      · rw [if_neg h]
        rcases strLe_total x.term z.term with h' | h'
        · exact h'
        · by_cases he : z.term = x.term
          · exact he ▸ strLe_refl _
          · exact absurd (Or.inl (strLt_of_strLe_of_ne h' he)) h
    have hle_x : strLe (if entryLt z x then z else x).term x.term := by
      by_cases h : entryLt z x
      · rw [if_pos h]
        rcases h with h | ⟨h, _⟩
        · exact strLe_of_strLt h
        · exact h ▸ strLe_refl _
      · rw [if_neg h]; exact strLe_refl _
    constructor
    · rcases List.mem_cons.mp hmem with h | h
      · rw [h]
        rcases hx' with h' | h'
        · rw [h']; exact List.mem_cons_of_mem _ (List.mem_cons_self _ _)
        · rw [h']; exact List.mem_cons_self _ _
      · exact List.mem_cons_of_mem _ (List.mem_cons_of_mem _ h)
    · intro w hw
      have hminx : strLe (zs.foldl (fun best y => if entryLt y best then y else best)
          (if entryLt z x then z else x)).term (if entryLt z x then z else x).term :=
        hmin _ (List.mem_cons_self _ _)
      rcases List.mem_cons.mp hw with h | h
      · subst h; exact strLe_trans hminx hle_x
      rcases List.mem_cons.mp h with h' | h'
      · subst h'; exact strLe_trans hminx hle_z
      · exact hmin w (List.mem_cons_of_mem _ h')

theorem popMin_none {l : List MEntry} (h : popMin l = none) : l = [] := by
  cases l with
  | nil => rfl
  | cons x xs =>
    unfold popMin minEntry at h
    cases h

theorem popMin_some_spec {l : List MEntry} {e : MEntry} {l' : List MEntry}
    (h : popMin l = some (e, l')) :
    e ∈ l ∧ l' = l.erase e ∧ ∀ y ∈ l, strLe e.term y.term := by
  cases l with
  | nil => cases h
  | cons x xs =>
    unfold popMin minEntry at h
    have h' : ((xs.foldl (fun best y => if entryLt y best then y else best) x),
        (x :: xs).erase (xs.foldl (fun best y => if entryLt y best then y else best) x))
        = (e, l') := Option.some.inj h
    obtain ⟨he, hl'⟩ := Prod.mk.inj h'
    rcases minEntry_spec xs x with ⟨hmem, hmin⟩
    subst he
    subst hl'
    exact ⟨hmem, rfl, hmin⟩

theorem popMin_perm {l : List MEntry} {e : MEntry} {l' : List MEntry}
    (h : popMin l = some (e, l')) : l.Perm (e :: l') := by
  rcases popMin_some_spec h with ⟨hmem, hl', _⟩
  rw [hl']
  exact List.perm_cons_erase hmem

theorem heapMeasure_perm {l l' : List MEntry} (h : l.Perm l') :
    heapMeasure l = heapMeasure l' :=
  List.Perm.sum_eq (List.Perm.map entryWeight h)

theorem heapMeasure_pushRest (e : MEntry) (h : List MEntry) :
    heapMeasure (pushRest e h) ≤ e.rest.length + heapMeasure h := by
  unfold pushRest
  rcases hr : e.rest with _ | ⟨r, rs⟩
  · simp
  · simp only [heapMeasure, List.map_cons, List.sum_cons, entryWeight, List.length_cons]
    omega

theorem heapMeasure_popMin {l : List MEntry} {e : MEntry} {l' : List MEntry}
    (h : popMin l = some (e, l')) :
    heapMeasure l = e.rest.length + 1 + heapMeasure l' := by
  have := heapMeasure_perm (popMin_perm h)
  simp only [heapMeasure, List.map_cons, List.sum_cons, entryWeight] at this ⊢
  omega

/-- Final flush of the accumulating term (`merge_utils.py` lines 106-114),
still in reversed output order. -/
def flushCur (cur : Option (String × List Posting))
    (out : List (String × Nat × List Posting)) : List (String × Nat × List Posting) :=
  match cur with
  | none => out
  | some (t, ps) => (t, ps.length, ps) :: out

/-- Models the main loop of `merge_partials` (`merge_utils.py` lines 79-114),
including the final flush.  `out` is the output file so far, most recent
record first.  Each iteration pops one entry and pushes at most one entry
whose weight is one less, so the loop runs for exactly `heapMeasure heap`
iterations; the first argument is that iteration count, used as structural
recursion fuel (when it reaches 0 the heap is empty, so the fuel-exhausted
case coincides with the loop exit). -/
def mergeLoopF : Nat → List MEntry → Option (String × List Posting) →
    List (String × Nat × List Posting) → List (String × Nat × List Posting)
  | 0, _, cur, out => (flushCur cur out).reverse
  | n + 1, heap, cur, out =>
    match popMin heap with
    | none => (flushCur cur out).reverse
    | some eh =>
      mergeLoopF n (pushRest eh.1 eh.2) (accum cur eh.1.term eh.1.postings out).1
        (accum cur eh.1.term eh.1.postings out).2

/-- The sequence of `(term, postings)` records in the order the merge loop
pops them (same fuel discipline as `mergeLoopF`). -/
def popSeqF : Nat → List MEntry → List (String × List Posting)
  | 0, _ => []
  | n + 1, heap =>
    match popMin heap with
    | none => []
    | some eh => (eh.1.term, eh.1.postings) :: popSeqF n (pushRest eh.1 eh.2)

/-- Grouping a record sequence by adjacent equal terms, merging their
postings and emitting `(term, df, postings)` with `df` the length of the
merged list: the accumulator behaviour of the merge loop, on the flat pop
sequence. -/
def groupAcc : Option (String × List Posting) → List (String × List Posting) →
    List (String × Nat × List Posting)
  | none, [] => []
  | some (t, ps), [] => [(t, ps.length, ps)]
  | none, (t, ps) :: rest => groupAcc (some (t, ps)) rest
  | some (t, ps), (t', ps') :: rest =>
    if t' = t then groupAcc (some (t, mergePostings ps ps')) rest
    else (t, ps.length, ps) :: groupAcc (some (t', ps')) rest

/-- Priming loop of `merge_partials` (`merge_utils.py` lines 66-72): push the
first record of each input file, with its source index; sources count up from
`i`. -/
def primeHeap : Nat → List (List (String × List Posting)) → List MEntry
  | _, [] => []
  | i, [] :: fs => primeHeap (i + 1) fs
  | i, ((t, ps) :: rest) :: fs => ⟨t, i, ps, rest⟩ :: primeHeap (i + 1) fs

/-- Models `merge_partials` (`merge_utils.py` lines 56-116) applied to the
already-decoded contents of the partial-index files; returns the records of
the final index file in order. -/
def mergePartials (files : List (List (String × List Posting))) :
    List (String × Nat × List Posting) :=
  mergeLoopF (heapMeasure (primeHeap 0 files)) (primeHeap 0 files) none []

/-- The records an entry still holds: its pending `(term, postings)` plus the
unread remainder of its source file. -/
def entryRecords (e : MEntry) : List (String × List Posting) :=
  (e.term, e.postings) :: e.rest

/-- The entry's pending record comes no later than anything left in its file
(holds for entries primed from term-sorted files). -/
def entrySorted (e : MEntry) : Prop :=
  List.Pairwise (fun a b => strLe a.1 b.1) (entryRecords e)

theorem pushRest_flatMap (e : MEntry) (h1 : List MEntry) :
    (pushRest e h1).flatMap entryRecords = e.rest ++ h1.flatMap entryRecords := by
  unfold pushRest
  split
  · rename_i hr
    rw [hr]
    simp
  · rename_i r rs hr
    rw [hr]
    simp [entryRecords]

theorem mem_pushRest {e' e : MEntry} {h1 : List MEntry} (he' : e' ∈ pushRest e h1) :
    e' ∈ h1 ∨ ∃ r rs, e.rest = r :: rs ∧ e' = ⟨r.1, e.idx, r.2, rs⟩ := by
  unfold pushRest at he'
  split at he'
  · exact Or.inl he'
  · rename_i r rs hr
    rcases List.mem_cons.mp he' with h' | h'
    · exact Or.inr ⟨r, rs, hr, h'⟩
    · exact Or.inl h'

theorem heapMeasure_eq_zero {h : List MEntry} (hm : heapMeasure h ≤ 0) : h = [] := by
  cases h with
  | nil => rfl
  | cons e t =>
    simp only [heapMeasure, List.map_cons, List.sum_cons, entryWeight] at hm
    omega

theorem mergeLoopF_eq_groupAcc : ∀ (n : Nat) (heap : List MEntry)
    (cur : Option (String × List Posting)) (out : List (String × Nat × List Posting)),
    mergeLoopF n heap cur out = out.reverse ++ groupAcc cur (popSeqF n heap) := by
  intro n
  induction n with
  | zero =>
    intro heap cur out
    cases cur with
    | none => simp [mergeLoopF, popSeqF, flushCur, groupAcc]
    | some c =>
      obtain ⟨t, ps⟩ := c
      simp [mergeLoopF, popSeqF, flushCur, groupAcc]
  | succ n ih =>
    intro heap cur out
    cases hpop : popMin heap with
    | none =>
      cases cur with
      | none => simp [mergeLoopF, popSeqF, hpop, flushCur, groupAcc]
      | some c =>
        obtain ⟨t, ps⟩ := c
        simp [mergeLoopF, popSeqF, hpop, flushCur, groupAcc]
    | some eh =>
      obtain ⟨e, h1⟩ := eh
      simp only [mergeLoopF, popSeqF, hpop]
      rw [ih]
      cases cur with
      | none => simp [accum, groupAcc]
      | some c =>
        obtain ⟨t, ps⟩ := c
        by_cases hte : e.term = t
        · simp [accum, groupAcc, hte]
        · simp [accum, groupAcc, hte]

theorem mergePartials_eq_groupAcc (files : List (List (String × List Posting))) :
    mergePartials files
      = groupAcc none (popSeqF (heapMeasure (primeHeap 0 files)) (primeHeap 0 files)) := by
  unfold mergePartials
  rw [mergeLoopF_eq_groupAcc]
  rfl

theorem popSeqF_perm : ∀ (n : Nat) (heap : List MEntry), heapMeasure heap ≤ n →
    (popSeqF n heap).Perm (heap.flatMap entryRecords) := by
  intro n
  induction n with
  | zero =>
    intro heap hm
    rw [heapMeasure_eq_zero hm]
    exact List.Perm.refl _
  | succ n ih =>
    intro heap hm
    cases hpop : popMin heap with
    | none =>
      rw [popMin_none hpop]
      simp [popSeqF, popMin, minEntry]
    | some eh =>
      obtain ⟨e, h1⟩ := eh
      simp only [popSeqF, hpop]
      have hm' : heapMeasure (pushRest e h1) ≤ n := by
        have := heapMeasure_popMin hpop
        have := heapMeasure_pushRest e h1
        omega
      have hstep := (ih (pushRest e h1) hm').cons (e.term, e.postings)
      rw [pushRest_flatMap] at hstep
      refine hstep.trans ?_
      have hperm : heap.Perm (e :: h1) := popMin_perm hpop
      have hflat : ((e :: h1).flatMap entryRecords).Perm (heap.flatMap entryRecords) :=
        List.Perm.flatMap_right entryRecords hperm.symm
      refine List.Perm.trans ?_ hflat
      simp [entryRecords]

theorem mem_popSeqF : ∀ (n : Nat) (heap : List MEntry) (r : String × List Posting),
    r ∈ popSeqF n heap → ∃ e ∈ heap, r ∈ entryRecords e := by
  intro n
  induction n with
  | zero => intro heap r hr; cases hr
  | succ n ih =>
    intro heap r hr
    cases hpop : popMin heap with
    | none =>
      rw [popSeqF, hpop] at hr
      cases hr
    | some eh =>
      obtain ⟨e, h1⟩ := eh
      rw [popSeqF, hpop] at hr
      obtain ⟨hemem, hh1, _⟩ := popMin_some_spec hpop
      rcases List.mem_cons.mp hr with h' | h'
      · exact ⟨e, hemem, h' ▸ List.mem_cons_self _ _⟩
      · rcases ih _ r h' with ⟨e', he', hre'⟩
        rcases mem_pushRest he' with h'' | ⟨r0, rs, hrest, h''⟩
        · refine ⟨e', ?_, hre'⟩
          rw [hh1] at h''
          exact List.mem_of_mem_erase h''
        · refine ⟨e, hemem, ?_⟩
          subst h''
          unfold entryRecords at hre' ⊢
          simp only [Prod.mk.eta] at hre'
          rcases List.mem_cons.mp hre' with h3 | h3
          · exact List.mem_cons_of_mem _ (by rw [hrest, h3]; exact List.mem_cons_self _ _)
          · exact List.mem_cons_of_mem _ (by rw [hrest]; exact List.mem_cons_of_mem _ h3)

theorem popSeqF_sorted : ∀ (n : Nat) (heap : List MEntry),
    (∀ e ∈ heap, entrySorted e) →
    List.Pairwise (fun a b : String × List Posting => strLe a.1 b.1) (popSeqF n heap) := by
  intro n
  induction n with
  | zero => intro heap _; exact List.Pairwise.nil
  | succ n ih =>
    intro heap hs
    cases hpop : popMin heap with
    | none =>
      rw [popSeqF, hpop]
      exact List.Pairwise.nil
    | some eh =>
      obtain ⟨e, h1⟩ := eh
      rw [popSeqF, hpop]
      obtain ⟨hemem, hh1, hmin⟩ := popMin_some_spec hpop
      have hsubmem : ∀ e' ∈ h1, e' ∈ heap := by
        rw [hh1]
        intro e' he'
        exact List.mem_of_mem_erase he'
      have hs1 : ∀ e' ∈ pushRest e h1, entrySorted e' := by
        intro e' he'
        rcases mem_pushRest he' with h' | ⟨r, rs, hr, h'⟩
        · exact hs e' (hsubmem e' h')
        · subst h'
          have he := hs e hemem
          unfold entrySorted entryRecords at he ⊢
          simp only [Prod.mk.eta]
          rw [hr] at he
          exact (List.pairwise_cons.mp he).2
      have hhead : ∀ r ∈ popSeqF n (pushRest e h1), strLe e.term r.1 := by
        intro r hr
        rcases mem_popSeqF n _ r hr with ⟨e', he', hre'⟩
        rcases mem_pushRest he' with h' | ⟨r0, rs, hrest, h'⟩
        · have hee' : strLe e.term e'.term := hmin e' (hsubmem e' h')
          unfold entryRecords at hre'
          rcases List.mem_cons.mp hre' with h'' | h''
          · subst h''
            exact hee'
          · have he2 := hs e' (hsubmem e' h')
            unfold entrySorted entryRecords at he2
            exact strLe_trans hee' ((List.pairwise_cons.mp he2).1 r h'')
        · subst h'
          have he := hs e hemem
          unfold entrySorted entryRecords at he
          unfold entryRecords at hre'
          simp only [Prod.mk.eta] at hre'
          refine (List.pairwise_cons.mp he).1 r ?_
          rcases List.mem_cons.mp hre' with h3 | h3
          · rw [hrest, h3]
            exact List.mem_cons_self _ _
          · rw [hrest]
            exact List.mem_cons_of_mem _ h3
      exact List.Pairwise.cons hhead (ih (pushRest e h1) hs1)

/-! ## Properties of `merge_postings` -/

/-- The doc_ids of a posting list. -/
def docIds (ps : List Posting) : List Nat := ps.map Posting.doc_id

theorem mem_dictInsert {k : Nat} {v : α} {d : List (Nat × α)} {e : Nat × α}
    (he : e ∈ dictInsert k v d) : e = (k, v) ∨ e ∈ d := by
  induction d with
  | nil =>
    rw [List.mem_singleton.mp he]
    exact Or.inl rfl
  | cons kv rest ih =>
    obtain ⟨k', v'⟩ := kv
    unfold dictInsert at he
    by_cases h : k = k'
    · rw [if_pos h] at he
      rcases List.mem_cons.mp he with h' | h'
      · exact Or.inl h'
      · exact Or.inr (List.mem_cons_of_mem _ h')
    · rw [if_neg h] at he
      rcases List.mem_cons.mp he with h' | h'
      · exact Or.inr (h' ▸ List.mem_cons_self _ _)
      · rcases ih h' with h'' | h''
        · exact Or.inl h''
        · exact Or.inr (List.mem_cons_of_mem _ h'')

theorem mem_keys_dictInsert {k : Nat} {v : α} {d : List (Nat × α)} {k0 : Nat}
    (hk : k0 ∈ (dictInsert k v d).map Prod.fst) : k0 = k ∨ k0 ∈ d.map Prod.fst := by
  rcases List.mem_map.mp hk with ⟨e, he, hke⟩
  rcases mem_dictInsert he with h | h
  · left
    rw [← hke, h]
  · right
    exact hke ▸ List.mem_map_of_mem Prod.fst h

theorem dictInsert_keys_nodup {k : Nat} {v : α} {d : List (Nat × α)}
    (h : (d.map Prod.fst).Nodup) : ((dictInsert k v d).map Prod.fst).Nodup := by
  induction d with
  | nil => simp [dictInsert]
  | cons kv rest ih =>
    obtain ⟨k', v'⟩ := kv
    simp only [List.map_cons, List.nodup_cons] at h
    unfold dictInsert
    by_cases hk : k = k'
    · rw [if_pos hk]
      simp only [List.map_cons, List.nodup_cons]
      exact ⟨hk ▸ h.1, h.2⟩
    · rw [if_neg hk]
      simp only [List.map_cons, List.nodup_cons]
      refine ⟨?_, ih h.2⟩
      intro hmem
      rcases mem_keys_dictInsert hmem with h' | h'
      · exact hk h'.symm
      · exact h.1 h'

theorem dictGet_mem {k : Nat} {d : List (Nat × α)} {v : α} (h : dictGet k d = some v) :
    (k, v) ∈ d := by
  induction d with
  | nil => cases h
  | cons kv rest ih =>
    obtain ⟨k', v'⟩ := kv
    unfold dictGet at h
    by_cases hk : k = k'
    · rw [if_pos hk] at h
      subst hk
      rw [Option.some.inj h]
      exact List.mem_cons_self _ _
    · rw [if_neg hk] at h
      exact List.mem_cons_of_mem _ (ih h)

theorem dictGet_eq_none {k : Nat} {d : List (Nat × α)} (h : k ∉ d.map Prod.fst) :
    dictGet k d = none := by
  induction d with
  | nil => rfl
  | cons kv rest ih =>
    obtain ⟨k', v'⟩ := kv
    simp only [List.map_cons, List.mem_cons] at h
    push_neg at h
    unfold dictGet
    rw [if_neg h.1]
    exact ih h.2

theorem dictInsert_append {k : Nat} {v : α} {d : List (Nat × α)}
    (h : k ∉ d.map Prod.fst) : dictInsert k v d = d ++ [(k, v)] := by
  induction d with
  | nil => rfl
  | cons kv rest ih =>
    obtain ⟨k', v'⟩ := kv
    simp only [List.map_cons, List.mem_cons] at h
    push_neg at h
    unfold dictInsert
    rw [if_neg h.1, ih h.2]
    rfl

theorem foldl_mergeSeed_inv : ∀ (l : List Posting) (d : List (Nat × Posting)),
    (∀ e ∈ d, e.2.doc_id = e.1) → ∀ e ∈ l.foldl mergeSeed d, e.2.doc_id = e.1 := by
  intro l
  induction l with
  | nil => intro d hd e he; exact hd e he
  | cons p l ih =>
    intro d hd e he
    refine ih (mergeSeed d p) ?_ e he
    intro e' he'
    rcases mem_dictInsert he' with h | h
    · rw [h]
    · exact hd e' h

theorem foldl_mergeAdd_inv : ∀ (l : List Posting) (d : List (Nat × Posting)),
    (∀ e ∈ d, e.2.doc_id = e.1) → ∀ e ∈ l.foldl mergeAdd d, e.2.doc_id = e.1 := by
  intro l
  induction l with
  | nil => intro d hd e he; exact hd e he
  | cons p l ih =>
    intro d hd e he
    refine ih (mergeAdd d p) ?_ e he
    intro e' he'
    unfold mergeAdd at he'
    rcases hg : dictGet p.doc_id d with _ | pa <;> rw [hg] at he'
    · rcases mem_dictInsert he' with h | h
      · rw [h]
      · exact hd e' h
    · rcases mem_dictInsert he' with h | h
      · rw [h]; rfl
      · exact hd e' h

theorem foldl_mergeSeed_keys_nodup : ∀ (l : List Posting) (d : List (Nat × Posting)),
    (d.map Prod.fst).Nodup → ((l.foldl mergeSeed d).map Prod.fst).Nodup := by
  intro l
  induction l with
  | nil => intro d hd; exact hd
  | cons p l ih =>
    intro d hd
    exact ih _ (dictInsert_keys_nodup hd)

theorem foldl_mergeAdd_keys_nodup : ∀ (l : List Posting) (d : List (Nat × Posting)),
    (d.map Prod.fst).Nodup → ((l.foldl mergeAdd d).map Prod.fst).Nodup := by
  intro l
  induction l with
  | nil => intro d hd; exact hd
  | cons p l ih =>
    intro d hd
    refine ih _ ?_
    unfold mergeAdd
    rcases hg : dictGet p.doc_id d with _ | pa
    · exact dictInsert_keys_nodup hd
    · exact dictInsert_keys_nodup hd

theorem filterMap_dictGet_ids_sub : ∀ (ks : List Nat) (d : List (Nat × Posting)),
    (∀ e ∈ d, e.2.doc_id = e.1) →
    ∀ q ∈ ks.filterMap (fun k => dictGet k d), q.doc_id ∈ ks := by
  intro ks
  induction ks with
  | nil => intro d _ q hq; cases hq
  | cons k ks ih =>
    intro d hd q hq
    rw [List.filterMap_cons] at hq
    rcases hg : dictGet k d with _ | p <;> rw [hg] at hq
    · exact List.mem_cons_of_mem _ (ih d hd q hq)
    · rcases List.mem_cons.mp hq with h | h
      · subst h
        rw [hd (k, q) (dictGet_mem hg)]
        exact List.mem_cons_self _ _
      · exact List.mem_cons_of_mem _ (ih d hd q h)

theorem filterMap_dictGet_ids_nodup : ∀ (ks : List Nat) (d : List (Nat × Posting)),
    ks.Nodup → (∀ e ∈ d, e.2.doc_id = e.1) →
    (docIds (ks.filterMap (fun k => dictGet k d))).Nodup := by
  intro ks
  induction ks with
  | nil => intro d _ _; exact List.nodup_nil
  | cons k ks ih =>
    intro d hnd hd
    rw [List.nodup_cons] at hnd
    unfold docIds
    rw [List.filterMap_cons]
    rcases hg : dictGet k d with _ | p
    · exact ih d hnd.2 hd
    · simp only [List.map_cons, List.nodup_cons]
      constructor
      · intro hmem
        rcases List.mem_map.mp hmem with ⟨q, hq, hqid⟩
        have := filterMap_dictGet_ids_sub ks d hd q hq
        rw [hqid, hd (k, p) (dictGet_mem hg)] at this
        exact hnd.1 this
      · exact ih d hnd.2 hd

/-- The postings produced by `merge_postings` always have pairwise-distinct
doc_ids (they are read off a dict keyed by doc_id). -/
theorem mergePostings_docIds_nodup (a b : List Posting) :
    (docIds (mergePostings a b)).Nodup := by
  unfold mergePostings
  have hinv : ∀ e ∈ b.foldl mergeAdd (a.foldl mergeSeed []), e.2.doc_id = e.1 :=
    foldl_mergeAdd_inv b _ (foldl_mergeSeed_inv a [] (by intro e he; cases he))
  have hkeys : (((b.foldl mergeAdd (a.foldl mergeSeed [])).map Prod.fst)).Nodup :=
    foldl_mergeAdd_keys_nodup b _ (foldl_mergeSeed_keys_nodup a [] List.nodup_nil)
  have hsorted : (List.insertionSort (· ≤ ·)
      ((b.foldl mergeAdd (a.foldl mergeSeed [])).map Prod.fst)).Nodup :=
    (List.perm_insertionSort _ _).nodup_iff.mpr hkeys
  exact filterMap_dictGet_ids_nodup _ _ hsorted hinv

theorem foldl_mergeSeed_eq : ∀ (l : List Posting) (d : List (Nat × Posting)),
    (∀ p ∈ l, p.doc_id ∉ d.map Prod.fst) → (docIds l).Nodup →
    l.foldl mergeSeed d = d ++ l.map (fun p => (p.doc_id, p)) := by
  intro l
  induction l with
  | nil => intro d _ _; simp
  | cons p l ih =>
    intro d hfresh hnd
    unfold docIds at hnd
    simp only [List.map_cons, List.nodup_cons] at hnd
    rw [List.foldl_cons]
    have hstep : mergeSeed d p = d ++ [(p.doc_id, p)] :=
      dictInsert_append (hfresh p (List.mem_cons_self _ _))
    rw [hstep, ih (d ++ [(p.doc_id, p)]) ?_ hnd.2]
    · simp
    · intro q hq
      rw [List.map_append, List.mem_append]
      push_neg
      refine ⟨hfresh q (List.mem_cons_of_mem _ hq), ?_⟩
      simp only [List.map_cons, List.map_nil, List.mem_singleton]
      intro hqd
      exact hnd.1 (hqd ▸ List.mem_map_of_mem Posting.doc_id hq)

theorem foldl_mergeAdd_eq : ∀ (l : List Posting) (d : List (Nat × Posting)),
    (∀ p ∈ l, p.doc_id ∉ d.map Prod.fst) → (docIds l).Nodup →
    l.foldl mergeAdd d = d ++ l.map (fun p => (p.doc_id, p)) := by
  intro l
  induction l with
  | nil => intro d _ _; simp
  | cons p l ih =>
    intro d hfresh hnd
    unfold docIds at hnd
    simp only [List.map_cons, List.nodup_cons] at hnd
    rw [List.foldl_cons]
    have hnone : dictGet p.doc_id d = none :=
      dictGet_eq_none (hfresh p (List.mem_cons_self _ _))
    have hstep : mergeAdd d p = d ++ [(p.doc_id, p)] := by
      unfold mergeAdd
      rw [hnone]
      exact dictInsert_append (hfresh p (List.mem_cons_self _ _))
    rw [hstep, ih (d ++ [(p.doc_id, p)]) ?_ hnd.2]
    · simp
    · intro q hq
      rw [List.map_append, List.mem_append]
      push_neg
      refine ⟨hfresh q (List.mem_cons_of_mem _ hq), ?_⟩
      simp only [List.map_cons, List.map_nil, List.mem_singleton]
      intro hqd
      exact hnd.1 (hqd ▸ List.mem_map_of_mem Posting.doc_id hq)

theorem dictGet_cons {k k' : Nat} {v : α} {d : List (Nat × α)} :
    dictGet k ((k', v) :: d) = if k = k' then some v else dictGet k d := rfl

theorem filterMap_get_map_pair : ∀ (l : List Posting), (docIds l).Nodup →
    (docIds l).filterMap (fun k => dictGet k (l.map (fun p => (p.doc_id, p)))) = l := by
  intro l
  induction l with
  | nil => intro _; rfl
  | cons p l ih =>
    intro hnd
    unfold docIds at hnd ⊢
    simp only [List.map_cons, List.nodup_cons] at hnd
    have hget : dictGet p.doc_id ((p.doc_id, p) :: l.map (fun p => (p.doc_id, p)))
        = some p := by
      rw [dictGet_cons, if_pos rfl]
    have hcongr : (l.map Posting.doc_id).filterMap
          (fun k => dictGet k ((p.doc_id, p) :: l.map (fun p => (p.doc_id, p))))
        = (l.map Posting.doc_id).filterMap
          (fun k => dictGet k (l.map (fun p => (p.doc_id, p)))) := by
      refine List.filterMap_congr ?_
      intro k hk
      rw [dictGet_cons, if_neg ?_]
      intro hkp
      exact hnd.1 (hkp ▸ hk)
    simp only [List.map_cons, List.filterMap_cons, hget]
    have hih := ih hnd.2
    unfold docIds at hih
    rw [hcongr, hih]

/-- On inputs with globally distinct doc_ids (the case of batch-disjoint
batches), `merge_postings` performs no summing: its result is the
concatenation of its inputs, re-ordered by doc_id. -/
theorem mergePostings_perm_append (a b : List Posting)
    (h : (docIds (a ++ b)).Nodup) : (mergePostings a b).Perm (a ++ b) := by
  have hsplit : docIds (a ++ b) = docIds a ++ docIds b := List.map_append _ _ _
  rw [hsplit] at h
  have hna : (docIds a).Nodup := h.of_append_left
  have hnb : (docIds b).Nodup := h.of_append_right
  have hdisj : ∀ x ∈ docIds b, x ∉ docIds a := by
    intro x hx hxa
    exact (List.disjoint_of_nodup_append h) hxa hx
  unfold mergePostings
  have hseed : a.foldl mergeSeed [] = a.map (fun p => (p.doc_id, p)) := by
    rw [foldl_mergeSeed_eq a [] (by intro p _ hp; cases hp) hna]
    rfl
  have hadd : b.foldl mergeAdd (a.foldl mergeSeed [])
      = (a ++ b).map (fun p => (p.doc_id, p)) := by
    rw [hseed, foldl_mergeAdd_eq b (a.map (fun p => (p.doc_id, p))) ?_ hnb]
    · rw [List.map_append]
    · intro q hq
      have : (a.map (fun p => (p.doc_id, p))).map Prod.fst = docIds a := by
        rw [List.map_map]
        rfl
      rw [this]
      exact hdisj q.doc_id (List.mem_map_of_mem Posting.doc_id hq)
  have hkeys : ((a ++ b).map (fun p => (p.doc_id, p))).map (fun e => e.1) = docIds (a ++ b) := by
    rw [List.map_map]
    rfl
  simp only [hadd, hkeys]
  have hperm : (List.insertionSort (· ≤ ·) (docIds (a ++ b))).Perm (docIds (a ++ b)) :=
    List.perm_insertionSort _ _
  refine List.Perm.trans (List.Perm.filterMap _ hperm) ?_
  rw [filterMap_get_map_pair (a ++ b) (hsplit.symm ▸ h)]

/-! ## Properties of the grouping pass, and C3/C4 -/

theorem groupAcc_sorted_some :
    ∀ (seq : List (String × List Posting)) (t : String) (ps : List Posting),
      List.Pairwise (fun a b : String × List Posting => strLe a.1 b.1) seq →
      (∀ r ∈ seq, strLe t r.1) →
      List.Pairwise (fun a b : String × Nat × List Posting => strLt a.1 b.1)
        (groupAcc (some (t, ps)) seq) ∧
      ∀ r' ∈ groupAcc (some (t, ps)) seq, strLe t r'.1 := by
  intro seq
  induction seq with
  | nil =>
    intro t ps _ _
    constructor
    · simp [groupAcc]
    · intro r' hr'
      simp only [groupAcc, List.mem_singleton] at hr'
      subst hr'
      exact strLe_refl t
  | cons a rest ih =>
    intro t ps hpair hge
    obtain ⟨t', ps'⟩ := a
    obtain ⟨hhead, htail⟩ := List.pairwise_cons.mp hpair
    by_cases h : t' = t
    · simp only [groupAcc, if_pos h]
      subst h
      exact ih t' (mergePostings ps ps') htail hhead
    · simp only [groupAcc, if_neg h]
      have hge' : ∀ r ∈ rest, strLe t' r.1 := hhead
      obtain ⟨ih1, ih2⟩ := ih t' ps' htail hge'
      have htt' : strLt t t' :=
        strLt_of_strLe_of_ne (hge (t', ps') (List.mem_cons_self _ _)) (fun he => h he.symm)
      constructor
      · refine List.Pairwise.cons ?_ ih1
        intro r' hr'
        exact strLt_of_strLt_of_strLe htt' (ih2 r' hr')
      · intro r' hr'
        rcases List.mem_cons.mp hr' with h' | h'
        · subst h'
          exact strLe_refl t
        · exact strLe_trans (strLe_of_strLt htt') (ih2 r' h')

theorem groupAcc_none_sorted (seq : List (String × List Posting))
    (hpair : List.Pairwise (fun a b : String × List Posting => strLe a.1 b.1) seq) :
    List.Pairwise (fun a b : String × Nat × List Posting => strLt a.1 b.1)
      (groupAcc none seq) := by
  cases seq with
  | nil => simp [groupAcc]
  | cons a rest =>
    obtain ⟨t, ps⟩ := a
    obtain ⟨hhead, htail⟩ := List.pairwise_cons.mp hpair
    simp only [groupAcc]
    exact (groupAcc_sorted_some rest t ps htail hhead).1

theorem groupAcc_terms_some :
    ∀ (seq : List (String × List Posting)) (t : String) (ps : List Posting) (t0 : String),
      t0 ∈ (groupAcc (some (t, ps)) seq).map (fun r => r.1)
        ↔ (t0 = t ∨ t0 ∈ seq.map (fun r => r.1)) := by
  intro seq
  induction seq with
  | nil =>
    intro t ps t0
    simp [groupAcc]
  | cons a rest ih =>
    intro t ps t0
    obtain ⟨t', ps'⟩ := a
    by_cases h : t' = t
    · simp only [groupAcc, if_pos h]
      rw [ih]
      subst h
      simp only [List.map_cons, List.mem_cons]
      tauto
    · simp only [groupAcc, if_neg h]
      simp only [List.map_cons, List.mem_cons, ih]

theorem groupAcc_none_terms (seq : List (String × List Posting)) (t0 : String) :
    t0 ∈ (groupAcc none seq).map (fun r => r.1) ↔ t0 ∈ seq.map (fun r => r.1) := by
  cases seq with
  | nil => simp [groupAcc]
  | cons a rest =>
    obtain ⟨t, ps⟩ := a
    simp only [groupAcc, groupAcc_terms_some, List.map_cons, List.mem_cons]

theorem groupAcc_df_some :
    ∀ (seq : List (String × List Posting)) (t : String) (ps : List Posting),
      (docIds ps).Nodup → (∀ r ∈ seq, (docIds r.2).Nodup) →
      ∀ r' ∈ groupAcc (some (t, ps)) seq,
        r'.2.1 = r'.2.2.length ∧ (docIds r'.2.2).Nodup := by
  intro seq
  induction seq with
  | nil =>
    intro t ps hps _ r' hr'
    simp only [groupAcc, List.mem_singleton] at hr'
    subst hr'
    exact ⟨rfl, hps⟩
  | cons a rest ih =>
    intro t ps hps hseq r' hr'
    obtain ⟨t', ps'⟩ := a
    by_cases h : t' = t
    · simp only [groupAcc, if_pos h] at hr'
      exact ih t (mergePostings ps ps') (mergePostings_docIds_nodup ps ps')
        (fun r hr => hseq r (List.mem_cons_of_mem _ hr)) r' hr'
    · simp only [groupAcc, if_neg h] at hr'
      rcases List.mem_cons.mp hr' with h' | h'
      · subst h'
        exact ⟨rfl, hps⟩
      · exact ih t' ps' (hseq (t', ps') (List.mem_cons_self _ _))
          (fun r hr => hseq r (List.mem_cons_of_mem _ hr)) r' h'

theorem groupAcc_none_df (seq : List (String × List Posting))
    (hseq : ∀ r ∈ seq, (docIds r.2).Nodup) :
    ∀ r' ∈ groupAcc none seq, r'.2.1 = r'.2.2.length ∧ (docIds r'.2.2).Nodup := by
  cases seq with
  | nil => intro r' hr'; cases hr'
  | cons a rest =>
    obtain ⟨t, ps⟩ := a
    simp only [groupAcc]
    exact groupAcc_df_some rest t ps (hseq (t, ps) (List.mem_cons_self _ _))
      (fun r hr => hseq r (List.mem_cons_of_mem _ hr))

theorem primeHeap_flatMap : ∀ (files : List (List (String × List Posting))) (i : Nat),
    (primeHeap i files).flatMap entryRecords = files.flatten := by
  intro files
  induction files with
  | nil => intro i; rfl
  | cons f fs ih =>
    intro i
    cases f with
    | nil =>
      simp only [primeHeap, List.flatten_cons, List.nil_append]
      exact ih (i + 1)
    | cons r rest =>
      obtain ⟨t, ps⟩ := r
      simp only [primeHeap, List.flatMap_cons, List.flatten_cons, entryRecords]
      rw [ih (i + 1)]

theorem primeHeap_sorted : ∀ (files : List (List (String × List Posting))) (i : Nat),
    (∀ f ∈ files, List.Pairwise (fun a b : String × List Posting => strLe a.1 b.1) f) →
    ∀ e ∈ primeHeap i files, entrySorted e := by
  intro files
  induction files with
  | nil => intro i _ e he; cases he
  | cons f fs ih =>
    intro i hs e he
    cases f with
    | nil =>
      exact ih (i + 1) (fun f hf => hs f (List.mem_cons_of_mem _ hf)) e he
    | cons r rest =>
      obtain ⟨t, ps⟩ := r
      simp only [primeHeap, List.mem_cons] at he
      rcases he with h | h
      · subst h
        unfold entrySorted entryRecords
        exact hs ((t, ps) :: rest) (List.mem_cons_self _ _)
      · exact ih (i + 1) (fun f hf => hs f (List.mem_cons_of_mem _ hf)) e h

/-- C3: if every input partial-index file is internally term-sorted, the term
sequence of the Final Index written by `merge_partials` is strictly
lexicographically increasing, and every distinct term of the inputs appears
exactly once (terms not in any input do not appear). -/
theorem c3_merged_terms_strictly_sorted (files : List (List (String × List Posting)))
    (hsorted : ∀ f ∈ files,
      List.Pairwise (fun a b : String × List Posting => strLe a.1 b.1) f) :
    List.Pairwise (fun a b : String × Nat × List Posting => strLt a.1 b.1)
      (mergePartials files) ∧
    ∀ t : String, ((mergePartials files).map (fun r => r.1)).count t
      = if t ∈ files.flatten.map (fun r => r.1) then 1 else 0 := by
  rw [mergePartials_eq_groupAcc]
  have hseq_sorted := popSeqF_sorted (heapMeasure (primeHeap 0 files)) (primeHeap 0 files)
    (primeHeap_sorted files 0 hsorted)
  have hperm := popSeqF_perm (heapMeasure (primeHeap 0 files)) (primeHeap 0 files) (le_refl _)
  rw [primeHeap_flatMap] at hperm
  refine ⟨groupAcc_none_sorted _ hseq_sorted, ?_⟩
  intro t
  have hnd : ((groupAcc none (popSeqF (heapMeasure (primeHeap 0 files))
      (primeHeap 0 files))).map (fun r => r.1)).Nodup :=
    List.pairwise_map.mpr
      ((groupAcc_none_sorted _ hseq_sorted).imp (fun h => strLt_ne h))
  have hmem_iff : t ∈ (groupAcc none (popSeqF (heapMeasure (primeHeap 0 files))
        (primeHeap 0 files))).map (fun r => r.1)
      ↔ t ∈ files.flatten.map (fun r => r.1) := by
    rw [groupAcc_none_terms]
    exact (hperm.map (fun r => r.1)).mem_iff
  by_cases hmem : t ∈ files.flatten.map (fun r => r.1)
  · rw [if_pos hmem]
    exact List.count_eq_one_of_mem hnd (hmem_iff.mpr hmem)
  · rw [if_neg hmem]
    exact List.count_eq_zero_of_not_mem (fun hx => hmem (hmem_iff.mp hx))

/-- Witness for C3 on two concrete sorted partial files sharing the term
"b". -/
theorem c3_merged_terms_strictly_sorted_witness :
    (∀ f ∈ [[("a", [(⟨0, 1, 0, 0, 0⟩ : Posting)]), ("b", [⟨0, 2, 0, 0, 0⟩])],
        [("b", [(⟨1, 1, 0, 0, 0⟩ : Posting)])]],
      List.Pairwise (fun a b : String × List Posting => strLe a.1 b.1) f) ∧
    List.Pairwise (fun a b : String × Nat × List Posting => strLt a.1 b.1)
      (mergePartials [[("a", [⟨0, 1, 0, 0, 0⟩]), ("b", [⟨0, 2, 0, 0, 0⟩])],
        [("b", [⟨1, 1, 0, 0, 0⟩])]]) ∧
    ((mergePartials [[("a", [⟨0, 1, 0, 0, 0⟩]), ("b", [⟨0, 2, 0, 0, 0⟩])],
        [("b", [⟨1, 1, 0, 0, 0⟩])]]).map (fun r => r.1)).count "b"
      = if "b" ∈ ([[("a", [(⟨0, 1, 0, 0, 0⟩ : Posting)]), ("b", [⟨0, 2, 0, 0, 0⟩])],
        [("b", [(⟨1, 1, 0, 0, 0⟩ : Posting)])]].flatten.map (fun r => r.1)) then 1 else 0 :=
  ⟨by decide,
    (c3_merged_terms_strictly_sorted _ (by decide)).1,
    (c3_merged_terms_strictly_sorted _ (by decide)).2 "b"⟩

/-- C4: provided each input record's postings carry distinct doc_ids (true of
the files the indexer flushes), every record `merge_partials` writes stores
as its df the number of distinct doc_ids among its postings — the count of
postings surviving the merge, not a separately maintained counter. -/
theorem c4_df_counts_distinct_docs (files : List (List (String × List Posting)))
    (hnd : ∀ f ∈ files, ∀ r ∈ f, (r.2.map Posting.doc_id).Nodup) :
    List.Forall (fun rec : String × Nat × List Posting =>
      rec.2.1 = (rec.2.2.map Posting.doc_id).dedup.length) (mergePartials files) := by
  rw [List.forall_iff_forall_mem]
  intro rec hrec
  rw [mergePartials_eq_groupAcc] at hrec
  have hseqnd : ∀ r ∈ popSeqF (heapMeasure (primeHeap 0 files)) (primeHeap 0 files),
      (docIds r.2).Nodup := by
    intro r hr
    have hperm := popSeqF_perm (heapMeasure (primeHeap 0 files)) (primeHeap 0 files) (le_refl _)
    rw [primeHeap_flatMap] at hperm
    have hrmem : r ∈ files.flatten := hperm.subset hr
    rcases List.mem_flatten.mp hrmem with ⟨f, hf, hrf⟩
    exact hnd f hf r hrf
  obtain ⟨hdf, hnodup⟩ := groupAcc_none_df _ hseqnd rec hrec
  unfold docIds at hnodup
  rw [List.Nodup.dedup hnodup, List.length_map]
  exact hdf

/-- Witness for C4: two files whose shared term "b" gets its postings merged;
the stored df must equal the distinct-doc count. -/
theorem c4_df_counts_distinct_docs_witness :
    (∀ f ∈ [[("a", [(⟨0, 1, 0, 0, 0⟩ : Posting)]), ("b", [⟨0, 2, 0, 0, 0⟩])],
        [("b", [(⟨1, 1, 0, 0, 0⟩ : Posting)])]],
      ∀ r ∈ f, (r.2.map Posting.doc_id).Nodup) ∧
    List.Forall (fun rec : String × Nat × List Posting =>
      rec.2.1 = (rec.2.2.map Posting.doc_id).dedup.length)
      (mergePartials [[("a", [⟨0, 1, 0, 0, 0⟩]), ("b", [⟨0, 2, 0, 0, 0⟩])],
        [("b", [⟨1, 1, 0, 0, 0⟩])]]) :=
  ⟨by decide, c4_df_counts_distinct_docs _ (by decide)⟩

/-! ## Per-term postings content of the merge (towards C2) -/

/-- All postings attached to term `t0` in a record sequence (a partial file,
or the pop sequence of the merge). -/
def seqPostings (l : List (String × List Posting)) (t0 : String) : List Posting :=
  (l.filter (fun r => r.1 == t0)).flatMap (fun r => r.2)

/-- All postings attached to term `t0` in an output (final index) file. -/
def outPostings (l : List (String × Nat × List Posting)) (t0 : String) : List Posting :=
  (l.filter (fun r => r.1 == t0)).flatMap (fun r => r.2.2)

theorem seqPostings_cons (t : String) (ps : List Posting)
    (l : List (String × List Posting)) (t0 : String) :
    seqPostings ((t, ps) :: l) t0
      = if t = t0 then ps ++ seqPostings l t0 else seqPostings l t0 := by
  by_cases h : t = t0
  · simp [seqPostings, List.filter_cons, h]
  · simp [seqPostings, List.filter_cons, h]

theorem outPostings_cons (t : String) (df : Nat) (ps : List Posting)
    (l : List (String × Nat × List Posting)) (t0 : String) :
    outPostings ((t, df, ps) :: l) t0
      = if t = t0 then ps ++ outPostings l t0 else outPostings l t0 := by
  by_cases h : t = t0
  · simp [outPostings, List.filter_cons, h]
  · simp [outPostings, List.filter_cons, h]

theorem seqPostings_eq_nil {l : List (String × List Posting)} {t0 : String}
    (h : ∀ r ∈ l, r.1 ≠ t0) : seqPostings l t0 = [] := by
  unfold seqPostings
  have hf : l.filter (fun r => r.1 == t0) = [] := by
    rw [List.filter_eq_nil_iff]
    intro r hr
    simp [h r hr]
  rw [hf]
  rfl

theorem outPostings_eq_nil {l : List (String × Nat × List Posting)} {t0 : String}
    (h : ∀ r ∈ l, r.1 ≠ t0) : outPostings l t0 = [] := by
  unfold outPostings
  have hf : l.filter (fun r => r.1 == t0) = [] := by
    rw [List.filter_eq_nil_iff]
    intro r hr
    simp [h r hr]
  rw [hf]
  rfl

theorem groupAcc_content_some :
    ∀ (seq : List (String × List Posting)) (t : String) (ps : List Posting),
      List.Pairwise (fun a b : String × List Posting => strLe a.1 b.1) seq →
      (∀ r ∈ seq, strLe t r.1) →
      (∀ t0, (docIds (seqPostings ((t, ps) :: seq) t0)).Nodup) →
      ∀ t0, (outPostings (groupAcc (some (t, ps)) seq) t0).Perm
        (seqPostings ((t, ps) :: seq) t0) := by
  intro seq
  induction seq with
  | nil =>
    intro t ps _ _ _ t0
    simp only [groupAcc]
    rw [outPostings_cons, seqPostings_cons]
    by_cases h : t = t0
    · rw [if_pos h, if_pos h]
      exact List.Perm.refl _
    · rw [if_neg h, if_neg h]
      exact List.Perm.refl _
  | cons a rest ih =>
    intro t ps hpair hge hnd t0
    obtain ⟨t', ps'⟩ := a
    obtain ⟨hhead, htail⟩ := List.pairwise_cons.mp hpair
    by_cases h : t' = t
    · subst h
      simp only [groupAcc, if_pos rfl]
      have hge' : ∀ r ∈ rest, strLe t' r.1 := hhead
      have hpairnd : (docIds (ps ++ ps')).Nodup := by
        have horig := hnd t'
        rw [seqPostings_cons, if_pos rfl, seqPostings_cons, if_pos rfl] at horig
        unfold docIds at horig ⊢
        rw [← List.append_assoc] at horig
        rw [List.map_append] at horig ⊢
        rw [List.map_append] at horig
        exact horig.of_append_left
      have hmergedperm : (mergePostings ps ps').Perm (ps ++ ps') :=
        mergePostings_perm_append ps ps' hpairnd
      have hndsub : ∀ t1,
          (docIds (seqPostings ((t', mergePostings ps ps') :: rest) t1)).Nodup := by
        intro t1
        rw [seqPostings_cons]
        by_cases h1 : t' = t1
        · rw [if_pos h1]
          have horig := hnd t1
          rw [seqPostings_cons, if_pos h1, seqPostings_cons, if_pos h1] at horig
          have hp : (mergePostings ps ps' ++ seqPostings rest t1).Perm
              (ps ++ (ps' ++ seqPostings rest t1)) := by
            refine (hmergedperm.append_right _).trans ?_
            rw [List.append_assoc]
          have hmap := hp.map Posting.doc_id
          unfold docIds
          exact hmap.nodup_iff.mpr horig
        · rw [if_neg h1]
          have horig := hnd t1
          rw [seqPostings_cons, if_neg h1, seqPostings_cons, if_neg h1] at horig
          exact horig
      refine (ih t' (mergePostings ps ps') htail hge' hndsub t0).trans ?_
      rw [seqPostings_cons, seqPostings_cons, seqPostings_cons]
      by_cases h1 : t' = t0
      · rw [if_pos h1, if_pos h1, if_pos h1]
        refine (hmergedperm.append_right _).trans ?_
        rw [List.append_assoc]
      · rw [if_neg h1, if_neg h1, if_neg h1]
    · simp only [groupAcc, if_neg h]
      have htt' : strLt t t' :=
        strLt_of_strLe_of_ne (hge (t', ps') (List.mem_cons_self _ _)) (fun he => h he.symm)
      have hrest_ne_t : ∀ r ∈ (t', ps') :: rest, r.1 ≠ t := by
        intro r hr
        rcases List.mem_cons.mp hr with h' | h'
        · subst h'
          exact fun he => (strLt_ne htt') he.symm
        · have : strLt t r.1 := strLt_of_strLt_of_strLe htt' (hhead r h')
          exact fun he => (strLt_ne this) he.symm
      have hnd' : ∀ t1, (docIds (seqPostings ((t', ps') :: rest) t1)).Nodup := by
        intro t1
        by_cases h1 : t = t1
        · rw [seqPostings_eq_nil (fun r hr he => hrest_ne_t r hr (he.trans h1.symm))]
          exact List.nodup_nil
        · have horig := hnd t1
          rw [seqPostings_cons, if_neg h1] at horig
          exact horig
      have ihres := ih t' ps' htail hhead hnd' t0
      rw [outPostings_cons, seqPostings_cons]
      by_cases h1 : t = t0
      · rw [if_pos h1, if_pos h1]
        have hG' : ∀ r' ∈ groupAcc (some (t', ps')) rest, r'.1 ≠ t0 := by
          intro r' hr'
          have hle := (groupAcc_sorted_some rest t' ps' htail hhead).2 r' hr'
          have hlt : strLt t r'.1 := strLt_of_strLt_of_strLe htt' hle
          rw [← h1]
          exact fun he => (strLt_ne hlt) he.symm
        rw [outPostings_eq_nil hG',
          seqPostings_eq_nil (fun r hr he => hrest_ne_t r hr (he.trans h1.symm))]
      · rw [if_neg h1, if_neg h1]
        exact ihres

theorem groupAcc_content_none (seq : List (String × List Posting))
    (hpair : List.Pairwise (fun a b : String × List Posting => strLe a.1 b.1) seq)
    (hnd : ∀ t0, (docIds (seqPostings seq t0)).Nodup) :
    ∀ t0, (outPostings (groupAcc none seq) t0).Perm (seqPostings seq t0) := by
  cases seq with
  | nil => intro t0; exact List.Perm.refl _
  | cons a rest =>
    obtain ⟨t, ps⟩ := a
    obtain ⟨hhead, htail⟩ := List.pairwise_cons.mp hpair
    intro t0
    simp only [groupAcc]
    exact groupAcc_content_some rest t ps htail hhead hnd t0

/-! ## Building a partial index for a batch of documents (`indexer.py`) and C2 -/

/-- A document whose zones have already been tokenized (zone extraction and
tokenization are external collaborators per the spec); the indexer pairs each
document with its assigned doc_id. -/
structure ZonedDoc where
  title : List String
  headers : List String
  bold : List String
  body : List String
deriving DecidableEq, Repr

/-- The posting `build_partial_index_for_doc` emits for term `t` of one doc
(`indexer.py` lines 34-41): the three boosted zone counts and
`tf = title_tf + header_tf + bold_tf + body_tf`. -/
def docPosting (docId : Nat) (z : ZonedDoc) (t : String) : Posting :=
  ⟨docId,
    z.title.count t + z.headers.count t + z.bold.count t + z.body.count t,
    z.title.count t, z.headers.count t, z.bold.count t⟩

/-- The terms of one document: the union of the four zone counters' key sets
(`indexer.py` line 33). -/
def docTerms (z : ZonedDoc) : List String :=
  (z.title ++ z.headers ++ z.bold ++ z.body).dedup

/-- The postings list the indexer's in-memory partial index accumulates for
term `t` over a batch (`indexer.py` lines 78-89): one posting per document
containing the term, appended in document order. -/
def batchPostings (batch : List (Nat × ZonedDoc)) (t : String) : List Posting :=
  batch.filterMap
    (fun d => if t ∈ docTerms d.2 then some (docPosting d.1 d.2 t) else none)

/-- The distinct terms of a batch (the keys of the in-memory partial index). -/
def batchTerms (batch : List (Nat × ZonedDoc)) : List String :=
  (batch.flatMap (fun d => docTerms d.2)).dedup

/-- Models `dump_partial_index` (`merge_utils.py` lines 9-21) applied to the
partial index built over `batch`: one record per term, terms in sorted
order. -/
def dumpBatch (batch : List (Nat × ZonedDoc)) : List (String × List Posting) :=
  (List.insertionSort strLe (batchTerms batch)).map (fun t => (t, batchPostings batch t))

theorem dumpBatch_sorted (b : List (Nat × ZonedDoc)) :
    List.Pairwise (fun a c : String × List Posting => strLe a.1 c.1) (dumpBatch b) :=
  List.pairwise_map.mpr (List.sorted_insertionSort strLe (batchTerms b))

theorem seqPostings_append (l1 l2 : List (String × List Posting)) (t0 : String) :
    seqPostings (l1 ++ l2) t0 = seqPostings l1 t0 ++ seqPostings l2 t0 := by
  unfold seqPostings
  rw [List.filter_append, List.flatMap_append]

theorem filter_map_pair_nodup :
    ∀ (ts : List String) (g : String → List Posting) (t0 : String), ts.Nodup →
      (ts.map (fun t => (t, g t))).filter (fun r => r.1 == t0)
        = if t0 ∈ ts then [(t0, g t0)] else [] := by
  intro ts
  induction ts with
  | nil => intro g t0 _; simp
  | cons t ts ih =>
    intro g t0 hnd
    rw [List.nodup_cons] at hnd
    rw [List.map_cons, List.filter_cons]
    by_cases h : t = t0
    · subst h
      simp only [beq_self_eq_true, if_pos, List.mem_cons, true_or, if_true]
      rw [ih g t hnd.2, if_neg hnd.1]
    · have hbeq : ((t, g t).1 == t0) = false := by
        simp [h]
      rw [hbeq]
      simp only [Bool.false_eq_true, if_false]
      rw [ih g t0 hnd.2]
      by_cases hm : t0 ∈ ts
      · rw [if_pos hm, if_pos (List.mem_cons_of_mem t hm)]
      · rw [if_neg hm, if_neg ?_]
        intro hc
        rcases List.mem_cons.mp hc with he | he
        · exact h he.symm
        · exact hm he

theorem batchTerms_nodup (b : List (Nat × ZonedDoc)) : (batchTerms b).Nodup :=
  List.nodup_dedup _

theorem seqPostings_dumpBatch (b : List (Nat × ZonedDoc)) (t0 : String) :
    seqPostings (dumpBatch b) t0
      = if t0 ∈ batchTerms b then batchPostings b t0 else [] := by
  unfold seqPostings dumpBatch
  have hnd : (List.insertionSort strLe (batchTerms b)).Nodup :=
    (List.perm_insertionSort _ _).nodup_iff.mpr (batchTerms_nodup b)
  rw [filter_map_pair_nodup _ _ _ hnd]
  have hmem := (List.perm_insertionSort strLe (batchTerms b)).mem_iff (a := t0)
  by_cases h : t0 ∈ batchTerms b
  · rw [if_pos (hmem.mpr h), if_pos h]
    simp
  · rw [if_neg (fun hc => h (hmem.mp hc)), if_neg h]
    rfl

theorem batchPostings_eq_nil {b : List (Nat × ZonedDoc)} {t0 : String}
    (h : t0 ∉ batchTerms b) : batchPostings b t0 = [] := by
  unfold batchPostings
  rw [List.filterMap_eq_nil_iff]
  intro d hd
  rw [if_neg]
  intro hmem
  refine h ?_
  unfold batchTerms
  rw [List.mem_dedup]
  exact List.mem_flatMap.mpr ⟨d, hd, hmem⟩

theorem seqPostings_dumpBatch_eq (b : List (Nat × ZonedDoc)) (t0 : String) :
    seqPostings (dumpBatch b) t0 = batchPostings b t0 := by
  rw [seqPostings_dumpBatch]
  by_cases h : t0 ∈ batchTerms b
  · rw [if_pos h]
  · rw [if_neg h, batchPostings_eq_nil h]

theorem docIds_batchPostings : ∀ (b : List (Nat × ZonedDoc)) (t0 : String),
    (docIds (batchPostings b t0)).Sublist (b.map (fun d => d.1)) := by
  intro b
  induction b with
  | nil => intro t0; exact List.nil_sublist _
  | cons d b ih =>
    intro t0
    unfold batchPostings docIds at ih ⊢
    rw [List.filterMap_cons, List.map_cons]
    by_cases h : t0 ∈ docTerms d.2
    · rw [if_pos h]
      exact List.Sublist.cons₂ _ (ih t0)
    · rw [if_neg h]
      exact List.Sublist.cons _ (ih t0)

theorem batchPostings_append (b1 b2 : List (Nat × ZonedDoc)) (t0 : String) :
    batchPostings (b1 ++ b2) t0 = batchPostings b1 t0 ++ batchPostings b2 t0 := by
  unfold batchPostings
  rw [List.filterMap_append]

/-- C2: for a document set with pairwise-distinct doc_ids split into two
batch-disjoint batches, merging the two flushed per-batch partial indexes
gives, for every term, exactly the postings (as a set — re-ordered by doc_id)
of the partial index built over the whole set directly.  With disjoint
batches no `(doc_id, term)` pair occurs twice, so no field-wise summation
takes place and the posting multisets agree on the nose. -/
theorem c2_merge_of_batches_eq_direct_build (b1 b2 : List (Nat × ZonedDoc))
    (hnd : ((b1 ++ b2).map (fun d => d.1)).Nodup) :
    ∀ t : String,
      (outPostings (mergePartials [dumpBatch b1, dumpBatch b2]) t).Perm
        (batchPostings (b1 ++ b2) t) := by
  intro t
  rw [mergePartials_eq_groupAcc]
  have hfiles : ∀ f ∈ [dumpBatch b1, dumpBatch b2],
      List.Pairwise (fun a c : String × List Posting => strLe a.1 c.1) f := by
    intro f hf
    rcases List.mem_cons.mp hf with h | h
    · rw [h]; exact dumpBatch_sorted b1
    · rw [List.mem_singleton.mp h]; exact dumpBatch_sorted b2
  have hseq_sorted := popSeqF_sorted (heapMeasure (primeHeap 0 [dumpBatch b1, dumpBatch b2]))
    (primeHeap 0 [dumpBatch b1, dumpBatch b2])
    (primeHeap_sorted [dumpBatch b1, dumpBatch b2] 0 hfiles)
  have hperm := popSeqF_perm (heapMeasure (primeHeap 0 [dumpBatch b1, dumpBatch b2]))
    (primeHeap 0 [dumpBatch b1, dumpBatch b2]) (le_refl _)
  rw [primeHeap_flatMap] at hperm
  have hflatten : ([dumpBatch b1, dumpBatch b2] : List (List (String × List Posting))).flatten
      = dumpBatch b1 ++ dumpBatch b2 := by
    simp
  rw [hflatten] at hperm
  have hseqeq : ∀ t0, (seqPostings (popSeqF (heapMeasure (primeHeap 0 [dumpBatch b1, dumpBatch b2]))
        (primeHeap 0 [dumpBatch b1, dumpBatch b2])) t0).Perm
      (batchPostings b1 t0 ++ batchPostings b2 t0) := by
    intro t0
    have h1 : (seqPostings (popSeqF (heapMeasure (primeHeap 0 [dumpBatch b1, dumpBatch b2]))
          (primeHeap 0 [dumpBatch b1, dumpBatch b2])) t0).Perm
        (seqPostings (dumpBatch b1 ++ dumpBatch b2) t0) := by
      unfold seqPostings
      exact List.Perm.flatMap_right _ (hperm.filter _)
    rw [seqPostings_append, seqPostings_dumpBatch_eq, seqPostings_dumpBatch_eq] at h1
    exact h1
  have hnodup : ∀ t0, (docIds (seqPostings (popSeqF (heapMeasure
        (primeHeap 0 [dumpBatch b1, dumpBatch b2]))
        (primeHeap 0 [dumpBatch b1, dumpBatch b2])) t0)).Nodup := by
    intro t0
    have hsub : (docIds (batchPostings b1 t0 ++ batchPostings b2 t0)).Sublist
        ((b1 ++ b2).map (fun d => d.1)) := by
      unfold docIds
      rw [List.map_append, List.map_append]
      exact List.Sublist.append (docIds_batchPostings b1 t0) (docIds_batchPostings b2 t0)
    have hnd2 : (docIds (batchPostings b1 t0 ++ batchPostings b2 t0)).Nodup :=
      List.Nodup.sublist hsub hnd
    exact (((hseqeq t0).map Posting.doc_id).nodup_iff).mpr hnd2
  refine ((groupAcc_content_none _ hseq_sorted hnodup) t).trans ?_
  rw [batchPostings_append]
  exact hseqeq t

/-- A document whose title and body both contain the token "t". -/
def zdocA : ZonedDoc := ⟨["t"], [], [], ["t"]⟩

/-- A document whose body contains the token "t". -/
def zdocB : ZonedDoc := ⟨[], [], [], ["t"]⟩

/-- Witness for C2: doc 0 (title and body contain "t") in batch 1, doc 1
(body contains "t") in batch 2. -/
theorem c2_merge_of_batches_eq_direct_build_witness :
    ((([(0, zdocA)] : List (Nat × ZonedDoc)) ++ [(1, zdocB)]).map
      (fun d : Nat × ZonedDoc => d.1)).Nodup ∧
    (outPostings (mergePartials [dumpBatch [(0, zdocA)], dumpBatch [(1, zdocB)]]) "t").Perm
      (batchPostings ([(0, zdocA)] ++ [(1, zdocB)]) "t") :=
  ⟨by decide,
    c2_merge_of_batches_eq_direct_build [(0, zdocA)] [(1, zdocB)] (by decide) "t"⟩

/-! ## Lexicon construction and the offset round-trip (`build_lexicon.py`,
`search.py` `read_postings_at`) — C5

The JSON encoding/decoding of one index record is plumbing (out of scope as
mechanics, in scope as a wire format), so it is abstracted as an `encode` /
`decode` pair subject to the line discipline the format guarantees: each
encoded record is one newline-terminated line with no interior newline, and
`decode` inverts `encode`. -/

structure IndexRecord where
  term : String
  df : Nat
  postings : List Posting
deriving DecidableEq, Repr

/-- The bytes removed by Python's `bytes.strip()`. -/
def isWsByte (b : Nat) : Bool :=
  b = 32 || b = 9 || b = 10 || b = 11 || b = 12 || b = 13

/-- A line `build_lexicon` skips: empty after stripping. -/
def isBlankLine (l : List Nat) : Bool := l.all isWsByte

/-- Models the loop of `build_lexicon` (`build_lexicon.py` lines 14-28):
`offset = f_in.tell()` before each `readline`; blank lines are skipped; each
emitted row is `(term, offset, df)` of the record decoded from that line. -/
def buildLexiconAux (encode : IndexRecord → List Nat) :
    Nat → List IndexRecord → List (String × Nat × Nat)
  | _, [] => []
  | offset, r :: rs =>
    if isBlankLine (encode r) then buildLexiconAux encode (offset + (encode r).length) rs
    else (r.term, offset, r.df) :: buildLexiconAux encode (offset + (encode r).length) rs

/-- Models `build_lexicon` (`build_lexicon.py` lines 8-29). -/
def buildLexicon (encode : IndexRecord → List Nat) (recs : List IndexRecord) :
    List (String × Nat × Nat) :=
  buildLexiconAux encode 0 recs

/-- The byte content of the Final Index file. -/
def fileBytes (encode : IndexRecord → List Nat) (recs : List IndexRecord) : List Nat :=
  (recs.map encode).flatten

/-- `f.readline()`: the bytes up to and including the first newline. -/
def readLineBytes : List Nat → List Nat
  | [] => []
  | b :: bs => if b = 10 then [b] else b :: readLineBytes bs

/-- Models `read_postings_at` (`search.py` lines 43-58): seek to the byte
offset, read one line, decode it. -/
def readPostingsAt (decode : List Nat → Option IndexRecord) (file : List Nat)
    (offset : Nat) : Option IndexRecord :=
  decode (readLineBytes (file.drop offset))

theorem readLineBytes_append :
    ∀ (body : List Nat), (10 : Nat) ∉ body → ∀ rest : List Nat,
      readLineBytes (body ++ 10 :: rest) = body ++ [10] := by
  intro body
  induction body with
  | nil =>
    intro _ rest
    simp [readLineBytes]
  | cons b bs ih =>
    intro h rest
    simp only [List.mem_cons] at h
    push_neg at h
    have hne : ¬ (b = 10) := fun he => h.1 he.symm
    simp only [List.cons_append, readLineBytes, List.append_eq, if_neg hne]
    rw [ih h.2 rest]

theorem buildLexicon_roundtrip_aux (encode : IndexRecord → List Nat)
    (decode : List Nat → Option IndexRecord) :
    ∀ (recs : List IndexRecord),
      (∀ r ∈ recs, ∃ body, encode r = body ++ [10] ∧ (10 : Nat) ∉ body) →
      (∀ r ∈ recs, decode (encode r) = some r) →
      ∀ (pre : List Nat) (t : String) (off df : Nat),
        (t, off, df) ∈ buildLexiconAux encode pre.length recs →
        ∃ r : IndexRecord,
          readPostingsAt decode (pre ++ fileBytes encode recs) off = some r ∧
          r.term = t ∧ r.df = df := by
  intro recs
  induction recs with
  | nil => intro _ _ pre t off df hmem; cases hmem
  | cons r rs ih =>
    intro henc hdec pre t off df hmem
    have hencr := henc r (List.mem_cons_self _ _)
    have hfile : pre ++ fileBytes encode (r :: rs)
        = (pre ++ encode r) ++ fileBytes encode rs := by
      unfold fileBytes
      rw [List.map_cons, List.flatten_cons, List.append_assoc]
    have htail : ∀ (t' : String) (off' df' : Nat),
        (t', off', df') ∈ buildLexiconAux encode (pre.length + (encode r).length) rs →
        ∃ r' : IndexRecord,
          readPostingsAt decode (pre ++ fileBytes encode (r :: rs)) off' = some r' ∧
          r'.term = t' ∧ r'.df = df' := by
      intro t' off' df' hmem'
      rw [hfile]
      refine ih (fun q hq => henc q (List.mem_cons_of_mem _ hq))
        (fun q hq => hdec q (List.mem_cons_of_mem _ hq)) (pre ++ encode r) t' off' df' ?_
      rw [List.length_append]
      exact hmem'
    unfold buildLexiconAux at hmem
    by_cases hblank : isBlankLine (encode r)
    · rw [if_pos hblank] at hmem
      exact htail t off df hmem
    · rw [if_neg hblank] at hmem
      rcases List.mem_cons.mp hmem with h | h
      · obtain ⟨ht, hrest⟩ := Prod.mk.inj h
        obtain ⟨hoff, hdf⟩ := Prod.mk.inj hrest
        obtain ⟨body, hbody, hnomem⟩ := hencr
        subst hoff
        refine ⟨r, ?_, ht.symm, hdf.symm⟩
        unfold readPostingsAt
        have hdrop : (pre ++ fileBytes encode (r :: rs)).drop pre.length
            = encode r ++ fileBytes encode rs := by
          unfold fileBytes
          rw [List.map_cons, List.flatten_cons]
          exact List.drop_left _ _
        rw [hdrop, hbody, List.append_assoc]
        simp only [List.singleton_append]
        rw [readLineBytes_append body hnomem]
        rw [← hbody]
        exact hdec r (List.mem_cons_self _ _)
      · exact htail t off df h

/-- C5: for every `(term, offset, df)` entry produced by `build_lexicon` from
a Final Index file, seeking to `offset` in that file and decoding one line
yields a record with that same term and df.  `encode`/`decode` are the JSON
line codec, assumed only to produce newline-terminated lines without interior
newlines and to round-trip. -/
theorem c5_lexicon_offset_roundtrip (encode : IndexRecord → List Nat)
    (decode : List Nat → Option IndexRecord) (recs : List IndexRecord)
    (henc : ∀ r ∈ recs, ∃ body, encode r = body ++ [10] ∧ (10 : Nat) ∉ body)
    (hdec : ∀ r ∈ recs, decode (encode r) = some r) :
    ∀ (t : String) (off df : Nat), (t, off, df) ∈ buildLexicon encode recs →
      ∃ r : IndexRecord,
        readPostingsAt decode (fileBytes encode recs) off = some r ∧
        r.term = t ∧ r.df = df := by
  intro t off df hmem
  have := buildLexicon_roundtrip_aux encode decode recs henc hdec [] t off df hmem
  rw [List.nil_append] at this
  exact this

/-- Witness for C5 with a one-record file and a concrete toy line codec. -/
theorem c5_lexicon_offset_roundtrip_witness :
    (∀ r ∈ [(⟨"a", 1, [⟨0, 1, 0, 0, 0⟩]⟩ : IndexRecord)],
      ∃ body, (fun r : IndexRecord => [r.df, 10]) r = body ++ [10] ∧ (10 : Nat) ∉ body) ∧
    (∀ r ∈ [(⟨"a", 1, [⟨0, 1, 0, 0, 0⟩]⟩ : IndexRecord)],
      (fun b => if b = [1, 10] then some (⟨"a", 1, [⟨0, 1, 0, 0, 0⟩]⟩ : IndexRecord)
        else none) ((fun r : IndexRecord => [r.df, 10]) r) = some r) ∧
    ∃ r : IndexRecord,
      readPostingsAt
        (fun b => if b = [1, 10] then some (⟨"a", 1, [⟨0, 1, 0, 0, 0⟩]⟩ : IndexRecord)
          else none)
        (fileBytes (fun r : IndexRecord => [r.df, 10]) [⟨"a", 1, [⟨0, 1, 0, 0, 0⟩]⟩]) 0
        = some r ∧ r.term = "a" ∧ r.df = 1 :=
  ⟨fun r hr => by
      rw [List.mem_singleton.mp hr]
      exact ⟨[1], rfl, by decide⟩,
    fun r hr => by
      rw [List.mem_singleton.mp hr]
      rfl,
    c5_lexicon_offset_roundtrip _ _ _
      (fun r hr => by
        rw [List.mem_singleton.mp hr]
        exact ⟨[1], rfl, by decide⟩)
      (fun r hr => by
        rw [List.mem_singleton.mp hr]
        rfl)
      "a" 0 1 (by decide)⟩

/-! ## Indexer driver and the flush threshold (`indexer.py` `main`) — C7 -/

/-- `build_partial_index_for_doc` as a record list: one `(term, posting)` pair
per distinct term of the document (`indexer.py` lines 12-42). -/
def perDocIndex (docId : Nat) (z : ZonedDoc) : List (String × Posting) :=
  (docTerms z).map (fun t => (t, docPosting docId z t))

/-- `defaultdict(list)` append: `partial_index[term].append(posting)`
(`indexer.py` lines 86-87). -/
def dictAppend (t : String) (p : Posting) :
    List (String × List Posting) → List (String × List Posting)
  | [] => [(t, [p])]
  | (t', ps) :: rest =>
    if t = t' then (t', ps ++ [p]) :: rest else (t', ps) :: dictAppend t p rest

/-- The indexer's mutable state: processed-document count, the in-memory
accumulator, and the partial files flushed so far. -/
structure IndexerState where
  docCount : Nat
  acc : List (String × List Posting)
  flushed : List (List (String × List Posting))
deriving DecidableEq, Repr

/-- `dump_partial_index` applied to the in-memory accumulator dict: its keys
in sorted order, each with its accumulated postings list. -/
def dumpAcc (acc : List (String × List Posting)) : List (String × List Posting) :=
  (List.insertionSort strLe (acc.map (fun e => e.1))).map
    (fun t => (t, (strDictGet t acc).getD []))

/-- `flush_partial` (`indexer.py` lines 69-76): an empty accumulator writes no
file; otherwise one partial file is written and the accumulator reset. -/
def flushAcc (st : IndexerState) : IndexerState :=
  if st.acc.isEmpty then st
  else ⟨st.docCount, [], st.flushed ++ [dumpAcc st.acc]⟩

/-- One iteration of the corpus loop (`indexer.py` lines 78-92): assign the
doc id, accumulate the per-document postings, bump `doc_count`, then evaluate
`doc_count % args.flush_docs == 0` — which raises `ZeroDivisionError` when
the flush threshold is 0 (for non-zero thresholds, Python's `x % f == 0` and
`Int.emod x f = 0` agree, both meaning `f` divides `x`). -/
def indexerStep (flushDocs : Int) (st : IndexerState) (z : ZonedDoc) :
    Except String IndexerState :=
  let acc1 := (perDocIndex st.docCount z).foldl (fun a pr => dictAppend pr.1 pr.2 a) st.acc
  let dc := st.docCount + 1
  if flushDocs = 0 then Except.error "ZeroDivisionError"
  else if (dc : Int) % flushDocs = 0 then Except.ok (flushAcc ⟨dc, acc1, st.flushed⟩)
  else Except.ok ⟨dc, acc1, st.flushed⟩

/-- The corpus loop, propagating the first error. -/
def indexerLoop (flushDocs : Int) :
    IndexerState → List ZonedDoc → Except String IndexerState
  | st, [] => Except.ok st
  | st, z :: zs =>
    match indexerStep flushDocs st z with
    | Except.error e => Except.error e
    | Except.ok st' => indexerLoop flushDocs st' zs

/-- Models `main` of `indexer.py` (lines 45-131) up to writing the doc map:
argparse performs **no validation** of `--flush-docs` (lines 51-53) — any
integer is accepted at configuration time — then the corpus loop runs, a
final unconditional flush happens, and the partial files are merged.
Returns `(doc_count, final index records)`. -/
def indexerMain (flushDocs : Int) (docs : List ZonedDoc) :
    Except String (Nat × List (String × Nat × List Posting)) :=
  match indexerLoop flushDocs ⟨0, [], []⟩ docs with
  | Except.error e => Except.error e
  | Except.ok st => Except.ok ((flushAcc st).docCount, mergePartials (flushAcc st).flushed)

/-- C7 is false of the code: a non-positive flush threshold is **not**
rejected at configuration time.  With threshold 0 an empty-corpus run
completes successfully (no rejection ever happens), and a run over one
document starts processing and only then dies with `ZeroDivisionError` at
`doc_count % args.flush_docs` — after corpus I/O and per-document indexing.
With threshold -1 the indexer accepts the configuration and happily indexes
a document to completion. -/
theorem c7_nonpositive_flush_threshold_not_rejected :
    indexerMain 0 [] = Except.ok (0, []) ∧
    indexerMain 0 [zdocA] = Except.error "ZeroDivisionError" ∧
    indexerMain (-1) [zdocA] = Except.ok (1, [("t", 1, [⟨0, 2, 1, 0, 0⟩])]) := by
  exact ⟨rfl, rfl, rfl⟩
